import Mathlib

/-!
# Device-parallel inclusive scan (`src/compute/scan.cpp`)

A shallow embedding of the scan coordinator `vm::Scan` and of its two OpenCL
kernels `local_scan` and `fixup_scan`.

* Elements are `uint` values: natural numbers, every addition reduced
  modulo `2^32`.
* Host sizes (`size_t`), kernel index values (`int`, `uint`) and the
  `cl_uint` size argument are natural numbers; the development assumes they
  fit their machine types (no array has `2^32` elements or more).
* A device buffer is a `List Nat`; the Level cache `m_phases` is a list of
  buffers. `Dispatch.run` gives the effect of a dispatch on the buffers
  where a store beyond the end of a buffer lands in no buffer and a load
  beyond the end reads 0. Such an access is undefined behaviour of the
  program: `Dispatch.in_bounds` says that a dispatch makes none, and
  `Dispatch.run_checked`, `scan_checked` have no result once a dispatch
  makes one. Results about whole runs of the program are stated on
  `scan_checked`.
* The `assert` of `inclusive_scan` is active.
* Loops that the source does not bound (`while (size > m_block_size)`) run
  on fuel, and running out of fuel is kept apart from every result.
-/

set_option linter.constructorNameAsVariable false

namespace vm

/-! ## Host side: buffer sizes -/

/-- The modulus of `uint` arithmetic. -/
def U32 : Nat := 4294967296

/-- The helper `align_to_block_size` (scan.cpp, lines 70-75). -/
def align_to_block_size (input block_size : Nat) : Nat :=
  if input % block_size ≠ 0 then
    input + (block_size - input % block_size)
  else
    input

/-- The state of the level-building loop of `ensure_buffers_ready`
(lines 84-98): the running `size`, the counter `num_phases` and the lengths
of the buffers appended to `m_phases` so far. -/
structure LoopState where
  size : Nat
  num_phases : Nat
  lengths : List Nat
  deriving DecidableEq

/-- The loop condition `size > m_block_size` (line 87). -/
def loop_cond (block_size : Nat) (st : LoopState) : Bool :=
  decide (st.size > block_size)

/-- One iteration of the loop body (lines 88-97). -/
def loop_body (block_size : Nat) (st : LoopState) : LoopState :=
  let size := st.size / block_size
  let array_size := align_to_block_size size block_size
  { size := size, num_phases := st.num_phases + 1, lengths := st.lengths ++ [array_size] }

/-- The `while` loop run with a bound on the number of iterations: `none`
when the loop has not exited after `fuel` iterations. -/
def loop_run (block_size : Nat) : Nat → LoopState → Option LoopState
  | 0, st => if loop_cond block_size st then none else some st
  | fuel + 1, st =>
    if loop_cond block_size st then loop_run block_size fuel (loop_body block_size st)
    else some st

/-- The coordinator object `vm::Scan`: its data members, the contents of the
Level buffers included. -/
structure Scan where
  m_last_input_size : Nat
  m_aligned_size : Nat
  m_block_size : Nat
  m_phases : List (List Nat)
  deriving DecidableEq

/-- The allocation `compute::vector<uint32_t>(array_size, 0, queue)`: a
zero-filled buffer. -/
def alloc (array_size : Nat) : List Nat := List.replicate array_size 0

/-- The method `Scan::ensure_buffers_ready` (lines 78-102); `none` when the level loop
does not exit within `fuel` iterations. -/
def ensure_buffers_ready (fuel : Nat) (s : Scan) (input_size : Nat) : Option Scan :=
  if s.m_last_input_size = input_size then
    some s
  else
    match loop_run s.m_block_size fuel { size := input_size, num_phases := 0, lengths := [] } with
    | none => none
    | some st =>
      some { m_last_input_size := input_size
             m_aligned_size := align_to_block_size input_size s.m_block_size
             m_block_size := s.m_block_size
             m_phases := st.lengths.map alloc }

/-- The constructor `Scan::Scan` (lines 104-135): the members after construction, given the
work-group sizes the device reports for the two kernels. -/
def Scan.construct (wg_local_scan wg_fixup_scan : Nat) : Scan :=
  { m_last_input_size := 0
    m_aligned_size := 0
    m_block_size := min wg_local_scan wg_fixup_scan
    m_phases := [] }

/-! ## Device side: the two kernels

Both kernels are compiled with `BLK_SIZE` equal to the work-group size they
are dispatched with; `block_size` below is that common value. A dispatch over
`global_size` lanes runs `global_size / block_size` work-groups; the lane
with global id `g_tid` has group id `g_tid / block_size` and local id
`g_tid % block_size`. Barriers make the lanes of one group proceed round by
round, so one round maps the previous `temp` row to the next one. -/

/-- Lines 29-34 of `local_scan`: the row `temp[po]` of work-group `group`
after the seeding step. -/
def seed (input : List Nat) (size block_size group : Nat) : List Nat :=
  (List.range block_size).map fun l_tid =>
    let g_tid := group * block_size + l_tid
    if g_tid < size then input.getD g_tid 0 else 0

/-- Lines 37-43 of `local_scan`: one round of the double-buffered loop, from
the row `temp[pi]` to the row `temp[po]`. -/
def scan_round (offset : Nat) (prev : List Nat) : List Nat :=
  (List.range prev.length).map fun l_tid =>
    if l_tid ≥ offset then
      (prev.getD l_tid 0 + prev.getD (l_tid - offset) 0) % U32
    else
      prev.getD l_tid 0

/-- Line 36 of `local_scan`: `for (offset = 1; offset < BLK_SIZE; offset *= 2)`,
run for at most `fuel` rounds. -/
def scan_rounds (block_size : Nat) : Nat → Nat → List Nat → List Nat
  | 0, _, temp => temp
  | fuel + 1, offset, temp =>
    if offset < block_size then
      scan_rounds block_size fuel (offset * 2) (scan_round offset temp)
    else
      temp

/-- The row `temp[po]` of work-group `group` when the loop of `local_scan`
has ended (`block_size` rounds are more than the loop ever makes). -/
def local_scan_temp (input : List Nat) (size block_size group : Nat) : List Nat :=
  scan_rounds block_size block_size 1 (seed input size block_size group)

/-- Lines 46-48 of `local_scan`: the buffer `output` after every lane of the
dispatch has done its store `output[g_tid] = temp[po][l_tid]`. -/
def local_scan_output (input output : List Nat) (size global_size block_size : Nat) :
    List Nat :=
  (List.range output.length).map fun g_tid =>
    if g_tid < global_size ∧ g_tid < size then
      (local_scan_temp input size block_size (g_tid / block_size)).getD
        (g_tid % block_size) 0
    else
      output.getD g_tid 0

/-- Lines 50-52 of `local_scan`, for a non-null `next`: the buffer `next`
after lane 0 of every work-group has stored `temp[po][BLK_SIZE - 1]`. A store
to a slot beyond the end of `next` does not land in the buffer. -/
def local_scan_next (input next : List Nat) (size global_size block_size : Nat) :
    List Nat :=
  (List.range next.length).map fun group =>
    if group < global_size / block_size then
      (local_scan_temp input size block_size group).getD (block_size - 1) 0
    else
      next.getD group 0

/-- Lines 55-65, `fixup_scan`: the buffer `output` after every lane of the
dispatch has run; the lane with global id `g` handles
`index = BLK_SIZE + g` and reads `next[g / BLK_SIZE]`. -/
def fixup_scan_output (output next : List Nat) (size global_size block_size : Nat) :
    List Nat :=
  (List.range output.length).map fun index =>
    if block_size ≤ index ∧ index - block_size < global_size ∧ index < size then
      (output.getD index 0 + next.getD ((index - block_size) / block_size) 0) % U32
    else
      output.getD index 0

/-! ## Dispatches, the command queue and device memory -/

/-- The buffers a kernel argument can name. -/
inductive Buffer where
  | input
  | output
  | phase (j : Nat)
  deriving DecidableEq

/-- A kernel with its arguments set as they are at `enqueue_1d_range_kernel`,
with the global and the local work size of the enqueue. -/
inductive Dispatch where
  | local_scan (input output : Buffer) (next : Option Buffer)
      (size global_size local_size : Nat)
  | fixup_scan (output next : Buffer) (size global_size local_size : Nat)
  deriving DecidableEq

/-- One entry of the command queue: the dispatch, its wait-list and the event
the enqueue returned. -/
structure Enqueued where
  dispatch : Dispatch
  wait_list : List Nat
  event : Nat
  deriving DecidableEq

/-- The command queue: what was enqueued so far, in order, and the next
fresh event. -/
structure Queue where
  enqueued : List Enqueued
  next_event : Nat
  deriving DecidableEq

/-- The call `queue.enqueue_1d_range_kernel(kernel, 0, global, local, events)`: the new
queue and the returned event. -/
def Queue.enqueue_1d_range_kernel (q : Queue) (d : Dispatch) (events : List Nat) :
    Queue × Nat :=
  ({ enqueued := q.enqueued ++ [{ dispatch := d, wait_list := events, event := q.next_event }]
     next_event := q.next_event + 1 }, q.next_event)

/-- Device memory: the caller's two vectors and the Level buffers. -/
structure Memory where
  input : List Nat
  output : List Nat
  phases : List (List Nat)
  deriving DecidableEq

/-- The contents of a buffer. -/
def Memory.read (m : Memory) : Buffer → List Nat
  | .input => m.input
  | .output => m.output
  | .phase j => m.phases.getD j []

/-- Replace the contents of a buffer. -/
def Memory.write (m : Memory) : Buffer → List Nat → Memory
  | .input, v => { m with input := v }
  | .output, v => { m with output := v }
  | .phase j, v => { m with phases := m.phases.set j v }

/-- Run one dispatch to completion. -/
def Dispatch.run (m : Memory) : Dispatch → Memory
  | .local_scan input output next size global_size local_size =>
    let inp := m.read input
    let m1 := m.write output (local_scan_output inp (m.read output) size global_size local_size)
    match next with
    | none => m1
    | some nx => m1.write nx (local_scan_next inp (m1.read nx) size global_size local_size)
  | .fixup_scan output next size global_size local_size =>
    m.write output (fixup_scan_output (m.read output) (m.read next) size global_size local_size)

/-- Run queue entries in order. -/
def run_all (m : Memory) (es : List Enqueued) : Memory :=
  es.foldl (fun m e => e.dispatch.run m) m

/-! ## Host side: `Scan::inclusive_scan` -/

/-- How a call of `inclusive_scan` ends on the host. -/
inductive Outcome where
  | assert_failed (s : Scan) (q : Queue)
  | diverged
  | returned (s : Scan) (q : Queue) (event : Nat)
  deriving DecidableEq

/-- Lines 160-175: the body of the loop over `j = 1 .. num_fixup_phases`. -/
def down_step (s : Scan) (st : Queue × Nat) (j : Nat) : Queue × Nat :=
  let num_fixup_phases := s.m_phases.length
  let size := (s.m_phases.getD (j - 1) []).length
  let next := if j < num_fixup_phases then some (Buffer.phase j) else none
  st.1.enqueue_1d_range_kernel
    (.local_scan (.phase (j - 1)) (.phase (j - 1)) next size size s.m_block_size) [st.2]

/-- Lines 178-188: the body of the loop over `j = num_fixup_phases - 1 .. 1`. -/
def up_step (s : Scan) (st : Queue × Nat) (j : Nat) : Queue × Nat :=
  let size := (s.m_phases.getD (j - 1) []).length
  st.1.enqueue_1d_range_kernel
    (.fixup_scan (.phase (j - 1)) (.phase j) size size s.m_block_size) [st.2]

/-- The method `Scan::inclusive_scan` (lines 137-199) on the host: the assertion, the
cache update and the enqueues. The host reads only the sizes of the two
vectors. -/
def inclusive_scan (fuel : Nat) (s : Scan) (input_size output_size : Nat) (q : Queue)
    (events : List Nat) : Outcome :=
  if ¬ (output_size ≥ input_size) then
    .assert_failed s q
  else
    match ensure_buffers_ready fuel s input_size with
    | none => .diverged
    | some s =>
      let next := if s.m_phases.length ≠ 0 then some (Buffer.phase 0) else none
      let st := q.enqueue_1d_range_kernel
        (.local_scan .input .output next input_size s.m_aligned_size s.m_block_size) events
      let num_fixup_phases := s.m_phases.length
      let st := (List.range' 1 num_fixup_phases).foldl (down_step s) st
      if num_fixup_phases ≠ 0 then
        let st := (List.range' 1 (num_fixup_phases - 1)).reverse.foldl (up_step s) st
        let st := st.1.enqueue_1d_range_kernel
          (.fixup_scan .output (.phase 0) output_size (s.m_aligned_size - s.m_block_size)
            s.m_block_size) [st.2]
        .returned s st.1 st.2
      else
        .returned s st.1 st.2

/-- A call of `inclusive_scan` on a fresh queue followed by the completion of
everything it enqueued: the coordinator with the Level buffers as the device
left them, and the contents of `output`. -/
def scan (fuel : Nat) (s : Scan) (input output : List Nat) : Option (Scan × List Nat) :=
  match inclusive_scan fuel s input.length output.length { enqueued := [], next_event := 0 } [] with
  | .returned s1 q _ =>
    let m := run_all { input := input, output := output, phases := s1.m_phases } q.enqueued
    some ({ s1 with m_phases := m.phases }, m.output)
  | _ => none

/-! ## Specification side -/

/-- The inclusive prefix sum of `xs` at position `i`, modulo `2^32`. -/
def prefix_sum (xs : List Nat) (i : Nat) : Nat :=
  (xs.take (i + 1)).sum % U32

/-- The initial state of the level loop for an input of `input_size`
elements (line 86). -/
def loop_init (input_size : Nat) : LoopState :=
  { size := input_size, num_phases := 0, lengths := [] }

/-- The running `size` of the level loop after `i` iterations on an input of
`n` elements: `n` divided `i` times by the block size, rounding down. -/
def running_size (B n i : Nat) : Nat := n / B ^ i

/-- The Level lengths the loop has appended after `k` iterations. -/
def level_lengths (B n k : Nat) : List Nat :=
  (List.range k).map fun i => align_to_block_size (running_size B n (i + 1)) B

/-- The number `k` of iterations is the one at which the loop exits: the
running size is above the block size before each of the `k` iterations and
not after the last. -/
def exits_at (B n k : Nat) : Prop :=
  running_size B n k ≤ B ∧ ∀ i, i < k → B < running_size B n i

/-- The lengths of the Level buffers of a coordinator. -/
def Scan.phase_lengths (s : Scan) : List Nat := s.m_phases.map List.length

/-- The sum `f 0 + ... + f (n - 1)`. -/
def sum_upto (f : Nat → Nat) : Nat → Nat
  | 0 => 0
  | n + 1 => sum_upto f n + f n

/-- Every element of the buffer is a `uint` value. -/
def is_u32 (xs : List Nat) : Prop := ∀ x ∈ xs, x < U32

instance (xs : List Nat) : Decidable (is_u32 xs) := by
  unfold is_u32
  infer_instance

/-- The row `t` holds, modulo `2^32`, the sums over the window of `w` slots
ending at each lane, `P m` being the sum of the first `m` seeds. -/
def window (P : Nat → Nat) (w : Nat) (t : List Nat) : Prop :=
  ∀ l, l < t.length → t.getD l 0 % U32 = (P (l + 1) - P (l + 1 - w)) % U32

/-- The element a lane with global id `k` seeds its slot with: `xs[k]` when
`k < size`, else 0. -/
def cell (xs : List Nat) (size k : Nat) : Nat :=
  if k < size then xs.getD k 0 else 0

/-- The queue entries of dispatches enqueued one after the other from event
number `first` on: the first waits on `wait`, every later one on the event of
the one before it. -/
def chain : List Dispatch → Nat → List Nat → List Enqueued
  | [], _, _ => []
  | d :: ds, first, wait =>
    { dispatch := d, wait_list := wait, event := first } :: chain ds (first + 1) [first]

/-- The dispatch schedule in the words of the specification, for a
coordinator with `L` Levels: `local_scan` from `input` to `output` with side
output `Level[0]`; for `j = 1 .. L` `local_scan` in place over `Level[j-1]`
with side output `Level[j]` (none for `j = L`); `fixup_scan` on `Level[j-1]`
with carries `Level[j]` for `j = L-1` down to 1; `fixup_scan` on `output` with
carries `Level[0]`. Every Level dispatch covers its whole buffer. -/
def schedule (s : Scan) (input_size output_size : Nat) : List Dispatch :=
  let L := s.m_phases.length
  let len := fun i => (s.m_phases.getD i []).length
  [Dispatch.local_scan .input .output (if L = 0 then none else some (.phase 0))
      input_size s.m_aligned_size s.m_block_size]
  ++ (List.range L).map (fun i =>
      Dispatch.local_scan (.phase i) (.phase i)
        (if i + 1 < L then some (.phase (i + 1)) else none) (len i) (len i) s.m_block_size)
  ++ (List.range (L - 1)).reverse.map (fun i =>
      Dispatch.fixup_scan (.phase i) (.phase (i + 1)) (len i) (len i) s.m_block_size)
  ++ (if L = 0 then []
      else [Dispatch.fixup_scan .output (.phase 0) output_size
              (s.m_aligned_size - s.m_block_size) s.m_block_size])

/-- The kernel a dispatch runs is `local_scan`. -/
def Dispatch.is_local_scan : Dispatch → Bool
  | .local_scan _ _ _ _ _ _ => true
  | .fixup_scan _ _ _ _ _ => false

/-- Every access `next[get_group_id(0)]` of the dispatch (the store at line 51
of `local_scan`, the load at line 60 of `fixup_scan`, one per work-group) is
inside the buffer passed as `next`. -/
def Dispatch.next_in_bounds (m : Memory) : Dispatch → Bool
  | .local_scan _ _ none _ _ _ => true
  | .local_scan _ _ (some nx) _ global_size local_size =>
    decide (global_size / local_size ≤ (m.read nx).length)
  | .fixup_scan _ nx _ global_size local_size =>
    decide (global_size / local_size ≤ (m.read nx).length)

/-- The downward pass over the Levels, from the Level `X` on: each Level is
scanned in place block by block and hands its block totals to the next. -/
def down_pass (B : Nat) (X : List Nat) : List (List Nat) → List (List Nat)
  | [] => [local_scan_output X X X.length X.length B]
  | Y :: rest =>
    local_scan_output X X X.length X.length B ::
      down_pass B (local_scan_next X Y X.length X.length B) rest

/-- The upward pass over the Levels: from the deepest Level up, each Level
gets the carries of the Level below it. -/
def up_pass (B : Nat) : List (List Nat) → List (List Nat)
  | [] => []
  | X :: rest =>
    match up_pass B rest with
    | [] => [X]
    | R :: tail => fixup_scan_output X R X.length X.length B :: R :: tail

/-- The buffer lengths `a, b, ...` of consecutive Levels leave no needed
carry without a slot: each Level has a slot for every block of the Level
before it except the last block, and the last Level fits one block. -/
def shape (B : Nat) : Nat → List Nat → Prop
  | a, [] => a ≤ B
  | a, b :: rest => (a - 1) / B ≤ b ∧ shape B b rest

/-- The first `X.length` elements of `R` are, modulo `2^32`, the inclusive
prefix sums of `X`. -/
def scanned (X R : List Nat) : Prop :=
  ∀ i, i < X.length → R.getD i 0 % U32 = sum_upto (fun k => X.getD k 0) (i + 1) % U32

/-- The cache of the coordinator is the one the level loop builds for
`m_last_input_size`: the Level lengths are those of the loop at its exit
count and `m_aligned_size` is the padded size. -/
def Scan.valid (s : Scan) : Prop :=
  ∃ k, exits_at s.m_block_size s.m_last_input_size k ∧
    s.phase_lengths = level_lengths s.m_block_size s.m_last_input_size k ∧
    s.m_aligned_size = align_to_block_size s.m_last_input_size s.m_block_size

/-- The coordinator states a program can reach: from the constructor, by
calls of `ensure_buffers_ready` and by calls of `inclusive_scan` whose
dispatches have completed. -/
inductive Reachable (wg_local_scan wg_fixup_scan : Nat) : Scan → Prop where
  | construct : Reachable wg_local_scan wg_fixup_scan
      (Scan.construct wg_local_scan wg_fixup_scan)
  | ensure {s s1 : Scan} {fuel n : Nat} :
      Reachable wg_local_scan wg_fixup_scan s →
      ensure_buffers_ready fuel s n = some s1 →
      Reachable wg_local_scan wg_fixup_scan s1
  | scan {s s1 : Scan} {fuel : Nat} {input output out : List Nat} :
      Reachable wg_local_scan wg_fixup_scan s →
      scan fuel s input output = some (s1, out) →
      Reachable wg_local_scan wg_fixup_scan s1

/-- Every access of the dispatch is inside the buffer it goes to: the loads
`input[g_tid]` (line 30) and the stores `output[g_tid]` (line 47) of the lanes
below `size`, the stores `output[index]` (line 63) of the lanes with
`index < size`, and the accesses `next[get_group_id(0)]` of every
work-group. -/
def Dispatch.in_bounds (m : Memory) : Dispatch → Bool
  | .local_scan src dst nx size global_size local_size =>
    decide (min global_size size ≤ (m.read src).length) &&
    decide (min global_size size ≤ (m.read dst).length) &&
    Dispatch.next_in_bounds m (.local_scan src dst nx size global_size local_size)
  | .fixup_scan dst nx size global_size local_size =>
    decide (global_size = 0 ∨ size ≤ local_size ∨
      min size (local_size + global_size) ≤ (m.read dst).length) &&
    Dispatch.next_in_bounds m (.fixup_scan dst nx size global_size local_size)

/-- Run one dispatch on the device: an access outside a buffer is undefined
behaviour, and then there is no result (`none`). -/
def Dispatch.run_checked (m : Memory) (d : Dispatch) : Option Memory :=
  if d.in_bounds m then some (d.run m) else none

/-- Run queue entries in order on the device, with no result once a dispatch
has none. -/
def run_all_checked (m : Memory) : List Enqueued → Option Memory
  | [] => some m
  | e :: es =>
    match e.dispatch.run_checked m with
    | none => none
    | some m1 => run_all_checked m1 es

/-- A call of `inclusive_scan` on a fresh queue followed by the completion of
everything it enqueued on the device: `none` when the call does not return or
a dispatch accesses a buffer out of bounds. -/
def scan_checked (fuel : Nat) (s : Scan) (input output : List Nat) :
    Option (Scan × List Nat) :=
  match inclusive_scan fuel s input.length output.length { enqueued := [], next_event := 0 } [] with
  | .returned s1 q _ =>
    match run_all_checked { input := input, output := output, phases := s1.m_phases }
        q.enqueued with
    | some m => some ({ s1 with m_phases := m.phases }, m.output)
    | none => none
  | _ => none

/-! ## `align_to_block_size` -/

theorem align_eq_self_of_dvd {x B : Nat} (h : B ∣ x) : align_to_block_size x B = x := by
  unfold align_to_block_size
  rw [if_neg]
  simpa using Nat.mod_eq_zero_of_dvd h

theorem align_dvd (x : Nat) {B : Nat} (hB : 1 ≤ B) : B ∣ align_to_block_size x B := by
  unfold align_to_block_size
  split
  · have hlt : x % B < B := Nat.mod_lt _ hB
    have h1 : x + (B - x % B) = B * (x / B) + B := by
      have := Nat.div_add_mod x B
      omega
    rw [h1]
    exact Dvd.intro (x / B + 1) (by ring)
  · rename_i h
    exact Nat.dvd_of_mod_eq_zero (by simpa using h)

theorem le_align (x B : Nat) : x ≤ align_to_block_size x B := by
  unfold align_to_block_size
  split <;> omega

theorem align_lt_add (x : Nat) {B : Nat} (hB : 1 ≤ B) : align_to_block_size x B < x + B := by
  unfold align_to_block_size
  split
  · rename_i h
    have : 0 < x % B := Nat.pos_of_ne_zero h
    omega
  · omega

theorem align_le_of_dvd {x B m : Nat} (hB : 1 ≤ B) (hm : B ∣ m) (hx : x ≤ m) :
    align_to_block_size x B ≤ m := by
  have h1 := align_dvd x hB
  have h2 := align_lt_add x hB
  obtain ⟨a, ha⟩ := h1
  obtain ⟨b, hb⟩ := hm
  rw [ha, hb]
  apply Nat.mul_le_mul_left
  by_contra hlt
  push_neg at hlt
  have : B * (b + 1) ≤ B * a := Nat.mul_le_mul_left _ hlt
  rw [ha] at h2
  rw [hb] at hx
  have : B * (b + 1) = B * b + B := by ring
  omega

theorem align_zero (B : Nat) : align_to_block_size 0 B = 0 := by
  simp [align_to_block_size]

theorem align_pos {x B : Nat} (hx : 0 < x) : 0 < align_to_block_size x B :=
  Nat.lt_of_lt_of_le hx (le_align x B)

/-- A size of at least one element and at most one block is padded to exactly
one block. -/
theorem align_eq_block {x B : Nat} (h0 : 0 < x) (hx : x ≤ B) : align_to_block_size x B = B := by
  have hB : 1 ≤ B := by omega
  have h1 := align_dvd x hB
  have h2 := align_lt_add x hB
  have h3 := le_align x B
  obtain ⟨a, ha⟩ := h1
  rw [ha] at h2 h3 ⊢
  have ha1 : a = 1 := by
    rcases a with _ | _ | a
    · omega
    · rfl
    · exfalso
      have : B * (a + 1 + 1) = B * a + B + B := by ring
      omega
  rw [ha1, Nat.mul_one]

/-! ## The level loop of `ensure_buffers_ready` -/

/-- The loop state after `k` iterations, in closed form. -/
theorem loop_body_iterate (B : Nat) (st : LoopState) (k : Nat) :
    (loop_body B)^[k] st =
      { size := st.size / B ^ k
        num_phases := st.num_phases + k
        lengths := st.lengths ++
          (List.range k).map fun i => align_to_block_size (st.size / B ^ (i + 1)) B } := by
  induction k with
  | zero => simp
  | succ k ih =>
    rw [Function.iterate_succ_apply', ih]
    simp only [loop_body, List.range_succ, List.map_append, List.map_cons, List.map_nil,
      Nat.div_div_eq_div_mul, pow_succ, List.append_assoc, Nat.add_assoc]

/-- When the fuel is at least the running size and the block size at least 2,
the loop exits, after a number `k` of iterations that is the first one at
which the condition fails. -/
theorem loop_run_exits {B : Nat} (hB : 2 ≤ B) :
    ∀ (fuel : Nat) (st : LoopState), st.size ≤ fuel →
      ∃ k, loop_run B fuel st = some ((loop_body B)^[k] st) ∧
        loop_cond B ((loop_body B)^[k] st) = false ∧
        ∀ i, i < k → loop_cond B ((loop_body B)^[i] st) = true := by
  intro fuel
  induction fuel with
  | zero =>
    intro st h
    refine ⟨0, ?_, ?_, ?_⟩
    · have : loop_cond B st = false := by simp [loop_cond]; omega
      simp [loop_run, this]
    · simp [loop_cond]; omega
    · intro i hi; omega
  | succ fuel ih =>
    intro st h
    by_cases hc : loop_cond B st = true
    · have hsz : B < st.size := by simpa [loop_cond] using hc
      have hlt : (loop_body B st).size ≤ fuel := by
        have : st.size / B < st.size := Nat.div_lt_self (by omega) (by omega)
        simp only [loop_body]
        omega
      obtain ⟨k, h1, h2, h3⟩ := ih (loop_body B st) hlt
      refine ⟨k + 1, ?_, ?_, ?_⟩
      · rw [Function.iterate_succ_apply]
        simp [loop_run, hc, h1]
      · rw [Function.iterate_succ_apply]; exact h2
      · intro i hi
        cases i with
        | zero => simpa using hc
        | succ i =>
          rw [Function.iterate_succ_apply]
          exact h3 i (by omega)
    · have hc2 : loop_cond B st = false := by simpa using hc
      refine ⟨0, ?_, ?_, ?_⟩
      · simp [loop_run, hc2]
      · simpa using hc2
      · intro i hi; omega

/-- Every run of the loop that exits returns an iterate of the body at which
the condition is false, all earlier iterates having it true. -/
theorem loop_run_some {B : Nat} :
    ∀ (fuel : Nat) (st st1 : LoopState), loop_run B fuel st = some st1 →
      ∃ k, st1 = (loop_body B)^[k] st ∧
        loop_cond B ((loop_body B)^[k] st) = false ∧
        ∀ i, i < k → loop_cond B ((loop_body B)^[i] st) = true := by
  intro fuel
  induction fuel with
  | zero =>
    intro st st1 h
    by_cases hc : loop_cond B st = true
    · simp [loop_run, hc] at h
    · have hc2 : loop_cond B st = false := by simpa using hc
      simp [loop_run, hc2] at h
      exact ⟨0, by simp [h], by simpa using hc2, by intro i hi; omega⟩
  | succ fuel ih =>
    intro st st1 h
    by_cases hc : loop_cond B st = true
    · simp only [loop_run, hc, if_true] at h
      obtain ⟨k, h1, h2, h3⟩ := ih _ _ h
      refine ⟨k + 1, ?_, ?_, ?_⟩
      · rw [Function.iterate_succ_apply]; exact h1
      · rw [Function.iterate_succ_apply]; exact h2
      · intro i hi
        cases i with
        | zero => simpa using hc
        | succ i =>
          rw [Function.iterate_succ_apply]
          exact h3 i (by omega)
    · have hc2 : loop_cond B st = false := by simpa using hc
      simp [loop_run, hc2] at h
      exact ⟨0, by simp [h], by simpa using hc2, by intro i hi; omega⟩

theorem loop_cond_iterate (B n k : Nat) :
    loop_cond B ((loop_body B)^[k] (loop_init n)) = decide (B < running_size B n k) := by
  rw [loop_body_iterate]
  simp [loop_cond, loop_init, running_size]

theorem exits_at_unique {B n k1 k2 : Nat} (h1 : exits_at B n k1) (h2 : exits_at B n k2) :
    k1 = k2 := by
  rcases Nat.lt_trichotomy k1 k2 with h | h | h
  · have := h2.2 k1 h; have := h1.1; omega
  · exact h
  · have := h1.2 k2 h; have := h2.1; omega

/-- For a block size of at least 2 the loop exits at some iteration count. -/
theorem exits_at_exists {B : Nat} (hB : 2 ≤ B) (n : Nat) : ∃ k, exits_at B n k := by
  obtain ⟨k, _, h2, h3⟩ := loop_run_exits hB n (loop_init n) (by simp [loop_init])
  refine ⟨k, ?_, ?_⟩
  · rw [loop_cond_iterate] at h2
    simpa using h2
  · intro i hi
    have := h3 i hi
    rw [loop_cond_iterate] at this
    simpa using this

/-- With enough fuel the loop returns the closed-form state at its exit
count. -/
theorem loop_run_eq {B n k : Nat} (hB : 2 ≤ B) (hk : exits_at B n k) (fuel : Nat)
    (hf : n ≤ fuel) :
    loop_run B fuel (loop_init n) =
      some { size := running_size B n k, num_phases := k, lengths := level_lengths B n k } := by
  obtain ⟨k1, h1, h2, h3⟩ := loop_run_exits hB fuel (loop_init n) (by simpa [loop_init] using hf)
  have hk1 : exits_at B n k1 := by
    refine ⟨?_, ?_⟩
    · rw [loop_cond_iterate] at h2
      simpa using h2
    · intro i hi
      have := h3 i hi
      rw [loop_cond_iterate] at this
      simpa using this
  have : k1 = k := exits_at_unique hk1 hk
  subst this
  rw [h1, loop_body_iterate]
  simp [loop_init, running_size, level_lengths]

/-- Whatever the fuel, a run of the loop that exits returns the closed-form
state at the exit count. -/
theorem loop_run_some_eq {B n : Nat} {fuel : Nat} {st : LoopState}
    (h : loop_run B fuel (loop_init n) = some st) :
    ∃ k, exits_at B n k ∧
      st = { size := running_size B n k, num_phases := k, lengths := level_lengths B n k } := by
  obtain ⟨k, h1, h2, h3⟩ := loop_run_some fuel _ _ h
  refine ⟨k, ⟨?_, ?_⟩, ?_⟩
  · rw [loop_cond_iterate] at h2
    simpa using h2
  · intro i hi
    have := h3 i hi
    rw [loop_cond_iterate] at this
    simpa using this
  · rw [h1, loop_body_iterate]
    simp [loop_init, running_size, level_lengths]

theorem alloc_length (n : Nat) : (alloc n).length = n := by simp [alloc]

theorem map_length_map_alloc (l : List Nat) : (l.map alloc).map List.length = l := by
  induction l with
  | nil => rfl
  | cons a l ih => simp [alloc_length, ih]

/-- A rebuilding call of `ensure_buffers_ready` that returns leaves the cache
with the closed-form lengths, zero-filled, and the padded size of the input. -/
theorem ensure_rebuild {fuel : Nat} {s s1 : Scan} {n : Nat} (hne : s.m_last_input_size ≠ n)
    (h : ensure_buffers_ready fuel s n = some s1) :
    ∃ k, exits_at s.m_block_size n k ∧
      s1 = { m_last_input_size := n
             m_aligned_size := align_to_block_size n s.m_block_size
             m_block_size := s.m_block_size
             m_phases := (level_lengths s.m_block_size n k).map alloc } := by
  unfold ensure_buffers_ready at h
  rw [if_neg hne] at h
  change (match loop_run s.m_block_size fuel (loop_init n) with
    | none => none
    | some st => some _) = some s1 at h
  cases hl : loop_run s.m_block_size fuel (loop_init n) with
  | none => rw [hl] at h; cases h
  | some st =>
    rw [hl] at h
    obtain ⟨k, hk, hst⟩ := loop_run_some_eq hl
    refine ⟨k, hk, ?_⟩
    simp only [Option.some.injEq] at h
    rw [← h, hst]

/-- With a block size of at least 2 and fuel at least the input size, a
rebuilding call of `ensure_buffers_ready` returns. -/
theorem ensure_rebuild_returns {s : Scan} {n k : Nat} (hB : 2 ≤ s.m_block_size)
    (hne : s.m_last_input_size ≠ n) (hk : exits_at s.m_block_size n k) (fuel : Nat)
    (hf : n ≤ fuel) :
    ensure_buffers_ready fuel s n =
      some { m_last_input_size := n
             m_aligned_size := align_to_block_size n s.m_block_size
             m_block_size := s.m_block_size
             m_phases := (level_lengths s.m_block_size n k).map alloc } := by
  unfold ensure_buffers_ready
  rw [if_neg hne]
  change (match loop_run s.m_block_size fuel (loop_init n) with
    | none => none
    | some st => some _) = _
  rw [loop_run_eq hB hk fuel hf]

theorem running_size_zero (B n : Nat) : running_size B n 0 = n := by
  simp [running_size]

theorem running_size_succ (B n i : Nat) :
    running_size B n (i + 1) = running_size B n i / B := by
  simp [running_size, Nat.div_div_eq_div_mul, pow_succ]

theorem level_lengths_length (B n k : Nat) : (level_lengths B n k).length = k := by
  simp [level_lengths]

theorem level_lengths_getD (B n k i : Nat) (hi : i < k) :
    (level_lengths B n k).getD i 0 = align_to_block_size (running_size B n (i + 1)) B := by
  simp [level_lengths, List.getD_eq_getElem?_getD, List.getElem?_map, List.getElem?_range hi]

/-- Dividing a size above the block size by the block size (at least 2) and
padding gives strictly less than padding the size itself. -/
theorem align_div_lt_align {x B : Nat} (hB : 2 ≤ B) (hx : B < x) :
    align_to_block_size (x / B) B < align_to_block_size x B := by
  have hq1 : 1 ≤ x / B := (Nat.one_le_div_iff (by omega)).mpr (by omega)
  have hqx : x / B * B ≤ x := Nat.div_mul_le_self x B
  rcases Nat.lt_or_ge (x / B) 2 with hq | hq
  · have hq' : x / B = 1 := by omega
    rw [hq', align_eq_block (by omega) (by omega)]
    obtain ⟨a, ha⟩ := align_dvd x (B := B) (by omega)
    have h3 := le_align x B
    rw [ha] at h3 ⊢
    rcases a with _ | _ | a
    · omega
    · omega
    · have : B * (a + 1 + 1) = B * a + B + B := by ring
      omega
  · have h1 := align_lt_add (x / B) (B := B) (by omega)
    have h2 := le_align x B
    have h3 : x / B + B ≤ x / B * B := by
      obtain ⟨q, hq2⟩ : ∃ q, x / B = q + 2 := ⟨x / B - 2, by omega⟩
      obtain ⟨b, hb⟩ : ∃ b, B = b + 2 := ⟨B - 2, by omega⟩
      rw [hq2, hb]
      ring_nf
      nlinarith [Nat.zero_le (q * b)]
    omega

/-- The running size stays positive as long as the previous one was above the
block size. -/
theorem running_size_succ_pos {B n i : Nat} (hB : 1 ≤ B) (h : B < running_size B n i) :
    1 ≤ running_size B n (i + 1) := by
  rw [running_size_succ]
  exact (Nat.one_le_div_iff (by omega)).mpr (by omega)

theorem phase_lengths_map_alloc (l : List Nat) (a b c : Nat) :
    Scan.phase_lengths { m_last_input_size := a, m_aligned_size := b, m_block_size := c,
                         m_phases := l.map alloc } = l := by
  unfold Scan.phase_lengths
  exact map_length_map_alloc l

/-- What a rebuilding call of `ensure_buffers_ready` returns when the block
size is at least 2 and the fuel at least the input size. -/
theorem ensure_rebuild_spec (s : Scan) (n fuel : Nat) (hB : 2 ≤ s.m_block_size)
    (hne : s.m_last_input_size ≠ n) (hf : n ≤ fuel) :
    ∃ k s1, exits_at s.m_block_size n k ∧ ensure_buffers_ready fuel s n = some s1 ∧
      s1.phase_lengths = level_lengths s.m_block_size n k ∧
      s1.m_phases = (level_lengths s.m_block_size n k).map alloc ∧
      s1.m_aligned_size = align_to_block_size n s.m_block_size ∧
      s1.m_block_size = s.m_block_size ∧ s1.m_last_input_size = n := by
  obtain ⟨k, hk⟩ := exits_at_exists hB n
  exact ⟨k, _, hk, ensure_rebuild_returns hB hne hk fuel hf,
    phase_lengths_map_alloc _ _ _ _, rfl, rfl, rfl, rfl⟩

/-- C6: with a block size above 1 and an input longer than one block, the
Level buffers built by `ensure_buffers_ready` strictly decrease in length:
`Level[0]` is shorter than the padded input and every Level is shorter than
the one before it. -/
theorem C6_sizes_strictly_decrease (s : Scan) (n fuel : Nat) (hB : 1 < s.m_block_size)
    (hn : s.m_block_size < n) (hne : s.m_last_input_size ≠ n) (hf : n ≤ fuel) :
    ∃ s1, ensure_buffers_ready fuel s n = some s1 ∧
      0 < s1.phase_lengths.length ∧
      s1.phase_lengths.getD 0 0 < align_to_block_size n s.m_block_size ∧
      ∀ i, i + 1 < s1.phase_lengths.length →
        s1.phase_lengths.getD (i + 1) 0 < s1.phase_lengths.getD i 0 := by
  obtain ⟨k, s1, hk, he, hl, -, -, -, -⟩ := ensure_rebuild_spec s n fuel hB hne hf
  have hk0 : 0 < k := by
    rcases Nat.eq_zero_or_pos k with h | h
    · have := hk.1
      rw [h, running_size_zero] at this
      omega
    · exact h
  refine ⟨s1, he, ?_, ?_, ?_⟩
  · rw [hl, level_lengths_length]; exact hk0
  · rw [hl, level_lengths_getD _ _ _ _ hk0, running_size_succ, running_size_zero]
    exact align_div_lt_align hB hn
  · intro i hi
    rw [hl, level_lengths_length] at hi
    rw [hl, level_lengths_getD _ _ _ _ hi, level_lengths_getD _ _ _ _ (by omega : i < k),
      running_size_succ _ _ (i + 1)]
    exact align_div_lt_align hB (hk.2 (i + 1) hi)

/-- C6 at block size 2 and 11 elements (Levels of 6 and 2 slots under a
padded input of 12). -/
theorem C6_sizes_strictly_decrease_witness :
    ∃ s1, ensure_buffers_ready 11 (Scan.construct 2 2) 11 = some s1 ∧
      0 < s1.phase_lengths.length ∧
      s1.phase_lengths.getD 0 0 < align_to_block_size 11 (Scan.construct 2 2).m_block_size ∧
      ∀ i, i + 1 < s1.phase_lengths.length →
        s1.phase_lengths.getD (i + 1) 0 < s1.phase_lengths.getD i 0 :=
  C6_sizes_strictly_decrease (Scan.construct 2 2) 11 11 (by decide) (by decide) (by decide)
    (by decide)

/-- C8: `ensure_buffers_ready` called with the size of the previous call
returns the coordinator as it was (Level buffers, their contents,
`m_aligned_size` and `m_last_input_size`), without running the level loop;
so a second call with the same size changes nothing after the first. -/
theorem C8_same_size_is_noop (s : Scan) (fuel : Nat) :
    ensure_buffers_ready fuel s s.m_last_input_size = some s ∧
    ∀ (n fuel2 : Nat) (s1 : Scan), ensure_buffers_ready fuel s n = some s1 →
      ensure_buffers_ready fuel2 s1 n = some s1 := by
  refine ⟨by simp [ensure_buffers_ready], ?_⟩
  intro n fuel2 s1 h
  have hlast : s1.m_last_input_size = n := by
    by_cases hne : s.m_last_input_size = n
    · simp [ensure_buffers_ready, hne] at h
      rw [← h]; exact hne
    · obtain ⟨k, -, hs1⟩ := ensure_rebuild hne h
      rw [hs1]
  simp [ensure_buffers_ready, hlast]

/-- C4: `inclusive_scan` fails its assertion exactly when `output` is shorter
than `input`, and then it has changed neither the coordinator nor the queue:
nothing was rebuilt and nothing enqueued. -/
theorem C4_assert_iff_output_too_short (fuel : Nat) (s : Scan) (input_size output_size : Nat)
    (q : Queue) (events : List Nat) :
    ((∃ s1 q1, inclusive_scan fuel s input_size output_size q events = .assert_failed s1 q1) ↔
      output_size < input_size) ∧
    (∀ s1 q1, inclusive_scan fuel s input_size output_size q events = .assert_failed s1 q1 →
      s1 = s ∧ q1 = q) := by
  have key : ∀ s1 q1, inclusive_scan fuel s input_size output_size q events = .assert_failed s1 q1 →
      output_size < input_size ∧ s1 = s ∧ q1 = q := by
    intro s1 q1 h
    unfold inclusive_scan at h
    by_cases hlt : output_size ≥ input_size
    · rw [if_neg (by simpa using hlt)] at h
      exfalso
      cases he : ensure_buffers_ready fuel s input_size with
      | none => rw [he] at h; cases h
      | some s2 =>
        rw [he] at h
        simp only at h
        split at h <;> cases h
    · rw [if_pos hlt] at h
      cases h
      exact ⟨by omega, rfl, rfl⟩
  refine ⟨⟨?_, ?_⟩, ?_⟩
  · rintro ⟨s1, q1, h⟩
    exact (key s1 q1 h).1
  · intro hlt
    refine ⟨s, q, ?_⟩
    unfold inclusive_scan
    rw [if_pos (by omega)]
  · intro s1 q1 h
    exact (key s1 q1 h).2

/-- With block size 1 the loop body leaves the running size as it is. -/
theorem loop_body_one_size (st : LoopState) : (loop_body 1 st).size = st.size := by
  simp [loop_body]

theorem loop_iterate_one_size (k : Nat) (st : LoopState) :
    ((loop_body 1)^[k] st).size = st.size := by
  induction k generalizing st with
  | zero => rfl
  | succ k ih => rw [Function.iterate_succ_apply, ih, loop_body_one_size]

theorem loop_run_one_none (fuel : Nat) :
    ∀ st : LoopState, 2 ≤ st.size → loop_run 1 fuel st = none := by
  induction fuel with
  | zero =>
    intro st h
    have : loop_cond 1 st = true := by simp [loop_cond]; omega
    simp [loop_run, this]
  | succ fuel ih =>
    intro st h
    have : loop_cond 1 st = true := by simp [loop_cond]; omega
    simp only [loop_run, this, if_true]
    exact ih _ (by rw [loop_body_one_size]; exact h)

/-- C10: with block size 1 and at least 2 elements the level loop keeps its
running size at `n`, has its condition true after every number of
iterations, and so never exits; a device that reports work-group size 1 gives
a coordinator with block size 1, and its `inclusive_scan` does not return. -/
theorem C10_block_size_one_never_terminates (n : Nat) (hn : 2 ≤ n) :
    (∀ k, ((loop_body 1)^[k] (loop_init n)).size = n ∧
      loop_cond 1 ((loop_body 1)^[k] (loop_init n)) = true) ∧
    (∀ fuel, loop_run 1 fuel (loop_init n) = none) ∧
    (∀ w, 1 ≤ w → (Scan.construct 1 w).m_block_size = 1 ∧
      (Scan.construct w 1).m_block_size = 1) ∧
    (∀ (w fuel output_size : Nat) (q : Queue) (events : List Nat), 1 ≤ w → n ≤ output_size →
      inclusive_scan fuel (Scan.construct 1 w) n output_size q events = .diverged) := by
  refine ⟨?_, ?_, ?_, ?_⟩
  · intro k
    have h := loop_iterate_one_size k (loop_init n)
    have h2 : ((loop_body 1)^[k] (loop_init n)).size = n := by simpa [loop_init] using h
    refine ⟨h2, ?_⟩
    unfold loop_cond
    rw [h2]
    exact decide_eq_true (by omega)
  · intro fuel
    exact loop_run_one_none fuel _ (by simpa [loop_init] using hn)
  · intro w hw
    simp [Scan.construct, hw]
  · intro w fuel output_size q events hw hout
    have hB : (Scan.construct 1 w).m_block_size = 1 := by simp [Scan.construct, hw]
    have hne : (Scan.construct 1 w).m_last_input_size ≠ n := by
      simp [Scan.construct]; omega
    have he : ensure_buffers_ready fuel (Scan.construct 1 w) n = none := by
      unfold ensure_buffers_ready
      rw [if_neg hne, hB]
      change (match loop_run 1 fuel (loop_init n) with
        | none => none
        | some st => some _) = none
      rw [loop_run_one_none fuel _ (by simpa [loop_init] using hn)]
    unfold inclusive_scan
    rw [if_neg (by omega), he]

/-- C10 at 2 elements. -/
theorem C10_block_size_one_never_terminates_witness :
    (∀ k, ((loop_body 1)^[k] (loop_init 2)).size = 2 ∧
      loop_cond 1 ((loop_body 1)^[k] (loop_init 2)) = true) ∧
    (∀ fuel, loop_run 1 fuel (loop_init 2) = none) ∧
    (∀ w, 1 ≤ w → (Scan.construct 1 w).m_block_size = 1 ∧
      (Scan.construct w 1).m_block_size = 1) ∧
    (∀ (w fuel output_size : Nat) (q : Queue) (events : List Nat), 1 ≤ w → 2 ≤ output_size →
      inclusive_scan fuel (Scan.construct 1 w) 2 output_size q events = .diverged) :=
  C10_block_size_one_never_terminates 2 (by decide)

/-- C17: with a block size of at least 2 and an input longer than one block,
every Level length is a positive multiple of the block size, the last Level
has exactly one block, and every Level before the last is longer than one
block. -/
theorem C17_level_shape (s : Scan) (n fuel : Nat) (hB : 2 ≤ s.m_block_size)
    (hn : s.m_block_size < n) (hne : s.m_last_input_size ≠ n) (hf : n ≤ fuel) :
    ∃ s1, ensure_buffers_ready fuel s n = some s1 ∧
      0 < s1.phase_lengths.length ∧
      (∀ i, i < s1.phase_lengths.length →
        0 < s1.phase_lengths.getD i 0 ∧ s.m_block_size ∣ s1.phase_lengths.getD i 0) ∧
      s1.phase_lengths.getD (s1.phase_lengths.length - 1) 0 = s.m_block_size ∧
      (∀ i, i + 1 < s1.phase_lengths.length → s.m_block_size < s1.phase_lengths.getD i 0) := by
  obtain ⟨k, s1, hk, he, hl, -, -, -, -⟩ := ensure_rebuild_spec s n fuel hB hne hf
  have hk0 : 0 < k := by
    rcases Nat.eq_zero_or_pos k with h | h
    · have := hk.1
      rw [h, running_size_zero] at this
      omega
    · exact h
  refine ⟨s1, he, ?_, ?_, ?_, ?_⟩
  · rw [hl, level_lengths_length]; exact hk0
  · intro i hi
    rw [hl, level_lengths_length] at hi
    rw [hl, level_lengths_getD _ _ _ _ hi]
    exact ⟨align_pos (running_size_succ_pos (by omega) (hk.2 i hi)), align_dvd _ (by omega)⟩
  · rw [hl, level_lengths_length, level_lengths_getD _ _ _ _ (by omega : k - 1 < k)]
    have h1 : k - 1 + 1 = k := by omega
    rw [h1]
    have hpos : 1 ≤ running_size s.m_block_size n k := by
      have := running_size_succ_pos (n := n) (i := k - 1) (by omega : 1 ≤ s.m_block_size)
        (hk.2 (k - 1) (by omega))
      rwa [h1] at this
    exact align_eq_block hpos hk.1
  · intro i hi
    rw [hl, level_lengths_length] at hi
    rw [hl, level_lengths_getD _ _ _ _ (by omega : i < k)]
    exact Nat.lt_of_lt_of_le (hk.2 (i + 1) hi) (le_align _ _)

/-- C17 at block size 2 and 37 elements (Levels of 18, 10, 4 and 2 slots). -/
theorem C17_level_shape_witness :
    ∃ s1, ensure_buffers_ready 37 (Scan.construct 2 2) 37 = some s1 ∧
      0 < s1.phase_lengths.length ∧
      (∀ i, i < s1.phase_lengths.length →
        0 < s1.phase_lengths.getD i 0 ∧
          (Scan.construct 2 2).m_block_size ∣ s1.phase_lengths.getD i 0) ∧
      s1.phase_lengths.getD (s1.phase_lengths.length - 1) 0
        = (Scan.construct 2 2).m_block_size ∧
      (∀ i, i + 1 < s1.phase_lengths.length →
        (Scan.construct 2 2).m_block_size < s1.phase_lengths.getD i 0) :=
  C17_level_shape (Scan.construct 2 2) 37 37 (by decide) (by decide) (by decide) (by decide)

/-- C5 evaluated at block size 2 and 11 elements: the loop builds Levels of 6
and 2 slots, while padding `6 / 2` gives 4, so `Level[1]` is shorter than
`align_up(len(Level[0]) / B, B)`; `Level[0]` has 3 blocks and `Level[1]` only
2 slots for their totals. The same at block size 256 and 16777472 elements:
Levels of 65792 and 256 slots, where padding `65792 / 256` gives 512. -/
theorem C5_level_lengths_at_11 :
    (ensure_buffers_ready 11 (Scan.construct 2 2) 11).map Scan.phase_lengths = some [6, 2] ∧
    align_to_block_size (6 / 2) 2 = 4 ∧ 6 / 2 = 3 ∧
    (loop_run 256 16777472 (loop_init 16777472)).map (fun st => st.lengths)
      = some [65792, 256] ∧
    align_to_block_size (65792 / 256) 256 = 512 := by
  decide

/-- The relation the Level lengths do satisfy: each is the padded quotient of
the unpadded running size, and never more than the padded quotient of the
previous Level length. -/
theorem level_length_relation (s : Scan) (n fuel : Nat) (hB : 2 ≤ s.m_block_size)
    (hne : s.m_last_input_size ≠ n) (hf : n ≤ fuel) :
    ∃ s1, ensure_buffers_ready fuel s n = some s1 ∧
      ∀ i, 1 ≤ i → i < s1.phase_lengths.length →
        s1.phase_lengths.getD (i - 1) 0
          = align_to_block_size (running_size s.m_block_size n i) s.m_block_size ∧
        s1.phase_lengths.getD i 0
          = align_to_block_size (running_size s.m_block_size n i / s.m_block_size)
              s.m_block_size ∧
        s1.phase_lengths.getD i 0
          ≤ align_to_block_size (s1.phase_lengths.getD (i - 1) 0 / s.m_block_size)
              s.m_block_size := by
  obtain ⟨k, s1, hk, he, hl, -, -, -, -⟩ := ensure_rebuild_spec s n fuel hB hne hf
  refine ⟨s1, he, ?_⟩
  intro i hi1 hi
  rw [hl, level_lengths_length] at hi
  obtain ⟨j, rfl⟩ : ∃ j, i = j + 1 := ⟨i - 1, by omega⟩
  have h1 : (level_lengths s.m_block_size n k).getD (j + 1 - 1) 0
      = align_to_block_size (running_size s.m_block_size n (j + 1)) s.m_block_size := by
    rw [Nat.add_sub_cancel]
    exact level_lengths_getD _ _ _ _ (by omega)
  have h2 : (level_lengths s.m_block_size n k).getD (j + 1) 0
      = align_to_block_size (running_size s.m_block_size n (j + 1) / s.m_block_size)
          s.m_block_size := by
    rw [level_lengths_getD _ _ _ _ hi, running_size_succ _ _ (j + 1)]
  rw [hl]
  refine ⟨h1, h2, ?_⟩
  rw [h2, h1]
  apply align_le_of_dvd (by omega) (align_dvd _ (by omega))
  exact Nat.le_trans (Nat.div_le_div_right (le_align _ _)) (le_align _ _)

/-! ## Sums -/

theorem getD_map_range (f : Nat → Nat) (n l : Nat) (h : l < n) :
    ((List.range n).map f).getD l 0 = f l := by
  simp [List.getD_eq_getElem?_getD, List.getElem?_map, List.getElem?_range h]

theorem getD_map_range_ge (f : Nat → Nat) (n l : Nat) (h : n ≤ l) :
    ((List.range n).map f).getD l 0 = 0 := by
  rw [List.getD_eq_getElem?_getD, List.getElem?_eq_none (by simpa using h)]
  rfl

theorem sum_upto_mono (f : Nat → Nat) {m n : Nat} (h : m ≤ n) : sum_upto f m ≤ sum_upto f n := by
  induction n with
  | zero =>
    have : m = 0 := by omega
    subst this
    exact Nat.le_refl _
  | succ n ih =>
    rcases Nat.lt_or_ge m (n + 1) with hlt | hge
    · exact Nat.le_trans (ih (by omega)) (Nat.le_add_right _ _)
    · have : m = n + 1 := by omega
      subst this
      exact Nat.le_refl _

theorem sum_upto_congr {f g : Nat → Nat} {n : Nat} (h : ∀ k, k < n → f k = g k) :
    sum_upto f n = sum_upto g n := by
  induction n with
  | zero => rfl
  | succ n ih =>
    simp only [sum_upto]
    rw [ih (fun k hk => h k (by omega)), h n (by omega)]

theorem sum_upto_add (f : Nat → Nat) (m n : Nat) :
    sum_upto f (m + n) = sum_upto f m + sum_upto (fun k => f (m + k)) n := by
  induction n with
  | zero => rfl
  | succ n ih =>
    rw [← Nat.add_assoc]
    simp only [sum_upto]
    rw [ih]
    omega

theorem sum_upto_zero_fun (n : Nat) : sum_upto (fun _ => 0) n = 0 := by
  induction n with
  | zero => rfl
  | succ n ih => simp [sum_upto, ih]

/-- The sum of the first `n` elements of a list, as a sum over indices. -/
theorem sum_take_eq (xs : List Nat) (n : Nat) :
    (xs.take n).sum = sum_upto (fun k => xs.getD k 0) n := by
  induction n with
  | zero => simp [sum_upto]
  | succ n ih =>
    simp only [sum_upto]
    rw [← ih]
    rcases Nat.lt_or_ge n xs.length with h | h
    · rw [List.sum_take_succ xs n h, List.getD_eq_getElem?_getD, List.getElem?_eq_getElem h]
      rfl
    · rw [List.take_of_length_le (by omega), List.take_of_length_le h,
        List.getD_eq_getElem?_getD, List.getElem?_eq_none h]
      rfl

theorem sum_drop_take_eq (xs : List Nat) (a n : Nat) :
    ((xs.drop a).take n).sum = sum_upto (fun k => xs.getD (a + k) 0) n := by
  rw [sum_take_eq]
  apply sum_upto_congr
  intro k _
  simp [List.getD_eq_getElem?_getD, List.getElem?_drop]

/-- A sum over `q` whole blocks of `B` slots is the sum of the block totals. -/
theorem sum_upto_blocks (f : Nat → Nat) (B q : Nat) :
    sum_upto f (B * q) = sum_upto (fun b => sum_upto (fun j => f (B * b + j)) B) q := by
  induction q with
  | zero => rfl
  | succ q ih =>
    rw [Nat.mul_succ, sum_upto_add, ih]
    rfl

/-! ## The `local_scan` kernel inside one work-group -/

theorem seed_length (input : List Nat) (size B g : Nat) : (seed input size B g).length = B := by
  simp [seed]

theorem seed_getD (input : List Nat) (size B g l : Nat) (h : l < B) :
    (seed input size B g).getD l 0 = if g * B + l < size then input.getD (g * B + l) 0 else 0 := by
  unfold seed
  rw [getD_map_range _ _ _ h]

theorem scan_round_length (w : Nat) (t : List Nat) : (scan_round w t).length = t.length := by
  simp [scan_round]

theorem scan_rounds_length (B : Nat) :
    ∀ (fuel w : Nat) (t : List Nat), (scan_rounds B fuel w t).length = t.length := by
  intro fuel
  induction fuel with
  | zero => intro w t; rfl
  | succ fuel ih =>
    intro w t
    simp only [scan_rounds]
    split
    · rw [ih, scan_round_length]
    · rfl

theorem local_scan_temp_length (input : List Nat) (size B g : Nat) :
    (local_scan_temp input size B g).length = B := by
  unfold local_scan_temp
  rw [scan_rounds_length, seed_length]

/-- One round doubles the window every lane has summed. -/
theorem scan_round_window {P : Nat → Nat} (hP : ∀ a b, a ≤ b → P a ≤ P b) {w : Nat}
    {t : List Nat} (h : window P w t) : window P (w * 2) (scan_round w t) := by
  intro l hl
  rw [scan_round_length] at hl
  unfold scan_round
  rw [getD_map_range _ _ _ hl]
  split
  · rename_i hge
    have h1 := h l hl
    have h2 := h (l - w) (by omega)
    have e1 : l - w + 1 = l + 1 - w := by omega
    have e2 : l + 1 - w - w = l + 1 - w * 2 := by omega
    rw [e1, e2] at h2
    have m1 := hP (l + 1 - w * 2) (l + 1 - w) (by omega)
    have m2 := hP (l + 1 - w) (l + 1) (by omega)
    rw [Nat.mod_mod, Nat.add_mod, h1, h2, ← Nat.add_mod]
    congr 1
    omega
  · rename_i hlt
    have h1 := h l hl
    have e1 : l + 1 - w = 0 := by omega
    have e2 : l + 1 - w * 2 = 0 := by omega
    rw [h1, e1, e2]

/-- When the loop over `offset` ends, with enough rounds allowed, every lane
holds the sum of all seeds up to its own. -/
theorem scan_rounds_window {P : Nat → Nat} (hP : ∀ a b, a ≤ b → P a ≤ P b) (hP0 : P 0 = 0)
    (B : Nat) :
    ∀ (fuel w : Nat) (t : List Nat), t.length = B → B ≤ w * 2 ^ fuel → window P w t →
      ∀ l, l < B → (scan_rounds B fuel w t).getD l 0 % U32 = P (l + 1) % U32 := by
  intro fuel
  induction fuel with
  | zero =>
    intro w t ht hw h l hl
    simp only [scan_rounds]
    have := h l (by omega)
    rw [this]
    have e : l + 1 - w = 0 := by simp at hw; omega
    rw [e, hP0, Nat.sub_zero]
  | succ fuel ih =>
    intro w t ht hw h l hl
    simp only [scan_rounds]
    split
    · apply ih (w * 2) (scan_round w t) (by rw [scan_round_length, ht]) _
        (scan_round_window hP h) l hl
      rw [pow_succ] at hw
      calc B ≤ w * (2 ^ fuel * 2) := hw
        _ = w * 2 * 2 ^ fuel := by ring
    · rename_i hge
      have := h l (by omega)
      rw [this]
      have e : l + 1 - w = 0 := by omega
      rw [e, hP0, Nat.sub_zero]

/-- The seeds of a row satisfy the window invariant for a window of one
slot. -/
theorem seed_window (t : List Nat) : window (fun m => sum_upto (fun k => t.getD k 0) m) 1 t := by
  intro l _
  have : l + 1 - 1 = l := by omega
  simp only [this, sum_upto]
  congr 1
  omega

/-- Rounds keep `uint` rows `uint`. -/
theorem scan_round_bound {w : Nat} {t : List Nat} (h : ∀ l, t.getD l 0 < U32) :
    ∀ l, (scan_round w t).getD l 0 < U32 := by
  intro l
  rcases Nat.lt_or_ge l t.length with hl | hl
  · unfold scan_round
    rw [getD_map_range _ _ _ hl]
    split
    · exact Nat.mod_lt _ (by decide)
    · exact h l
  · unfold scan_round
    rw [getD_map_range_ge _ _ _ hl]
    decide

theorem scan_rounds_bound (B : Nat) :
    ∀ (fuel w : Nat) (t : List Nat), (∀ l, t.getD l 0 < U32) →
      ∀ l, (scan_rounds B fuel w t).getD l 0 < U32 := by
  intro fuel
  induction fuel with
  | zero => intro w t h; exact h
  | succ fuel ih =>
    intro w t h
    simp only [scan_rounds]
    split
    · exact ih _ _ (scan_round_bound h)
    · exact h

theorem getD_lt_of_is_u32 {xs : List Nat} (h : is_u32 xs) (l : Nat) : xs.getD l 0 < U32 := by
  rcases Nat.lt_or_ge l xs.length with hl | hl
  · rw [List.getD_eq_getElem?_getD, List.getElem?_eq_getElem hl]
    exact h _ (List.getElem_mem hl)
  · rw [List.getD_eq_getElem?_getD, List.getElem?_eq_none hl]
    decide

theorem seed_bound {input : List Nat} (h : is_u32 input) (size B g : Nat) :
    ∀ l, (seed input size B g).getD l 0 < U32 := by
  intro l
  rcases Nat.lt_or_ge l B with hl | hl
  · rw [seed_getD _ _ _ _ _ hl]
    split
    · exact getD_lt_of_is_u32 h _
    · decide
  · unfold seed
    rw [getD_map_range_ge _ _ _ hl]
    decide

theorem local_scan_temp_bound {input : List Nat} (h : is_u32 input) (size B g l : Nat) :
    (local_scan_temp input size B g).getD l 0 < U32 :=
  scan_rounds_bound B B 1 _ (seed_bound h size B g) l

/-- The row of a work-group when `local_scan` leaves its loop: lane `l` holds,
modulo `2^32`, the sum of the seeds of lanes `0 .. l`. -/
theorem local_scan_temp_mod (input : List Nat) (size B g l : Nat) (hl : l < B) :
    (local_scan_temp input size B g).getD l 0 % U32 =
      sum_upto (fun k => (seed input size B g).getD k 0) (l + 1) % U32 := by
  unfold local_scan_temp
  exact scan_rounds_window (P := fun m => sum_upto (fun k => (seed input size B g).getD k 0) m)
    (fun a b hab => sum_upto_mono _ hab) rfl B B 1 _ (seed_length _ _ _ _)
    (by rw [Nat.one_mul]; exact Nat.le_of_lt (Nat.lt_two_pow B)) (seed_window _) l hl

theorem sum_upto_mod_congr {f g : Nat → Nat} {n : Nat}
    (h : ∀ k, k < n → f k % U32 = g k % U32) : sum_upto f n % U32 = sum_upto g n % U32 := by
  induction n with
  | zero => rfl
  | succ n ih =>
    simp only [sum_upto]
    rw [Nat.add_mod, ih (fun k hk => h k (by omega)), h n (by omega), ← Nat.add_mod]

/-- The row of work-group `g` at the end of `local_scan`, in terms of the
input: lane `l` holds the sum of the cells of lanes `0 .. l` of the group. -/
theorem local_scan_temp_cells (input : List Nat) (size B g l : Nat) (hl : l < B) :
    (local_scan_temp input size B g).getD l 0 % U32 =
      sum_upto (fun k => cell input size (g * B + k)) (l + 1) % U32 := by
  rw [local_scan_temp_mod _ _ _ _ _ hl]
  congr 1
  apply sum_upto_congr
  intro k hk
  rw [seed_getD _ _ _ _ _ (by omega)]
  rfl

theorem local_scan_output_length (input output : List Nat) (size G B : Nat) :
    (local_scan_output input output size G B).length = output.length := by
  simp [local_scan_output]

theorem local_scan_next_length (input next : List Nat) (size G B : Nat) :
    (local_scan_next input next size G B).length = next.length := by
  simp [local_scan_next]

theorem fixup_scan_output_length (output next : List Nat) (size G B : Nat) :
    (fixup_scan_output output next size G B).length = output.length := by
  simp [fixup_scan_output]

theorem local_scan_output_getD (input output : List Nat) (size G B g : Nat)
    (hg : g < output.length) :
    (local_scan_output input output size G B).getD g 0 =
      if g < G ∧ g < size then (local_scan_temp input size B (g / B)).getD (g % B) 0
      else output.getD g 0 := by
  unfold local_scan_output
  rw [getD_map_range _ _ _ hg]

theorem local_scan_next_getD (input next : List Nat) (size G B b : Nat) (hb : b < next.length) :
    (local_scan_next input next size G B).getD b 0 =
      if b < G / B then (local_scan_temp input size B b).getD (B - 1) 0 else next.getD b 0 := by
  unfold local_scan_next
  rw [getD_map_range _ _ _ hb]

theorem fixup_scan_output_getD (output next : List Nat) (size G B i : Nat)
    (hi : i < output.length) :
    (fixup_scan_output output next size G B).getD i 0 =
      if B ≤ i ∧ i - B < G ∧ i < size then
        (output.getD i 0 + next.getD ((i - B) / B) 0) % U32
      else output.getD i 0 := by
  unfold fixup_scan_output
  rw [getD_map_range _ _ _ hi]

theorem cell_of_lt (xs : List Nat) {size k : Nat} (h : k < size) :
    cell xs size k = xs.getD k 0 := by
  simp [cell, h]

theorem div_mul_add_mod (g B : Nat) : g / B * B + g % B = g := by
  rw [Nat.mul_comm]; exact Nat.div_add_mod g B

/-- What an in-range lane of `local_scan` stores, in terms of the input. -/
theorem local_scan_output_value {input : List Nat} (hu : is_u32 input) (output : List Nat)
    (size G B g : Nat) (hB : 1 ≤ B) (hg : g < output.length) (hG : g < G) (hs : g < size) :
    (local_scan_output input output size G B).getD g 0 =
      ((input.drop (B * (g / B))).take (g % B + 1)).sum % U32 := by
  rw [local_scan_output_getD _ _ _ _ _ _ hg, if_pos ⟨hG, hs⟩]
  have hl : g % B < B := Nat.mod_lt _ hB
  rw [← Nat.mod_eq_of_lt (local_scan_temp_bound hu size B (g / B) (g % B)),
    local_scan_temp_cells _ _ _ _ _ hl, sum_drop_take_eq]
  congr 1
  apply sum_upto_congr
  intro k hk
  have := div_mul_add_mod g B
  rw [cell_of_lt _ (by omega), Nat.mul_comm]

/-- C2: one dispatch of `local_scan` with block size `B >= 1`: every in-range
lane `g` stores the sum, modulo `2^32`, of the elements from the start of its
block up to `g`; lanes at or beyond `size` are seeded with 0 and leave
`output` alone; so an input of at most one block gets its full inclusive
prefix sum, and `[1,2,3,4]` with `B >= 4` gives `[1,3,6,10]`. -/
theorem C2_local_scan_block_sums (input output : List Nat) (size G B : Nat) (hB : 1 ≤ B)
    (hu : is_u32 input) :
    (local_scan_output input output size G B).length = output.length ∧
    (∀ g, g < size → g < G → g < output.length →
      (local_scan_output input output size G B).getD g 0 =
        ((input.drop (B * (g / B))).take (g % B + 1)).sum % U32) ∧
    (∀ grp l, l < B → size ≤ grp * B + l → (seed input size B grp).getD l 0 = 0) ∧
    (∀ g, size ≤ g → (local_scan_output input output size G B).getD g 0 = output.getD g 0) ∧
    (input.length ≤ B → size = input.length → ∀ i, i < input.length → i < G →
      i < output.length →
      (local_scan_output input output size G B).getD i 0 = prefix_sum input i) ∧
    (4 ≤ B → local_scan_output [1, 2, 3, 4] [0, 0, 0, 0] 4 (align_to_block_size 4 B) B
      = [1, 3, 6, 10]) := by
  have main : ∀ (inp out : List Nat) (sz G1 : Nat), is_u32 inp → inp.length ≤ B →
      sz = inp.length → ∀ i, i < inp.length → i < G1 → i < out.length →
      (local_scan_output inp out sz G1 B).getD i 0 = prefix_sum inp i := by
    intro inp out sz G1 hu1 hle hsz i hi hiG hio
    rw [local_scan_output_value hu1 out sz G1 B i hB hio hiG (by omega)]
    have h0 : i / B = 0 := Nat.div_eq_of_lt (by omega)
    have h1 : i % B = i := Nat.mod_eq_of_lt (by omega)
    rw [h0, h1]
    simp [prefix_sum]
  refine ⟨local_scan_output_length _ _ _ _ _, ?_, ?_, ?_, main input output size G hu, ?_⟩
  · intro g hs hG hg
    exact local_scan_output_value hu output size G B g hB hg hG hs
  · intro grp l hl hge
    rw [seed_getD _ _ _ _ _ hl, if_neg (by omega)]
  · intro g hge
    rcases Nat.lt_or_ge g output.length with hg | hg
    · rw [local_scan_output_getD _ _ _ _ _ _ hg, if_neg (by omega)]
    · rw [List.getD_eq_getElem?_getD, List.getD_eq_getElem?_getD,
        List.getElem?_eq_none (by rw [local_scan_output_length]; exact hg),
        List.getElem?_eq_none hg]
  · intro h4
    have hu4 : is_u32 [1, 2, 3, 4] := by
      intro x hx
      simp at hx
      rcases hx with rfl | rfl | rfl | rfl <;> decide
    have hG4 : 4 ≤ align_to_block_size 4 B := le_align 4 B
    apply List.ext_getElem
    · simp [local_scan_output_length]
    · intro i h1 h2
      have hi : i < 4 := by simpa using h2
      have key := main [1, 2, 3, 4] [0, 0, 0, 0] 4 (align_to_block_size 4 B) hu4
        (by simpa using h4) rfl i (by simpa using hi) (by omega) (by simpa using hi)
      rw [List.getD_eq_getElem?_getD, List.getElem?_eq_getElem h1] at key
      simp only [Option.getD_some] at key
      rw [key]
      have : i = 0 ∨ i = 1 ∨ i = 2 ∨ i = 3 := by omega
      rcases this with rfl | rfl | rfl | rfl <;> rfl

/-- C2 at the input `[1,2,3,4]` with one block of 4 lanes. -/
theorem C2_local_scan_block_sums_witness :
    is_u32 [1, 2, 3, 4] ∧
    (∀ i, i < 4 →
      (local_scan_output [1, 2, 3, 4] [0, 0, 0, 0] 4 4 4).getD i 0
        = prefix_sum [1, 2, 3, 4] i) ∧
    local_scan_output [1, 2, 3, 4] [0, 0, 0, 0] 4 4 4 = [1, 3, 6, 10] :=
  ⟨by decide,
   fun i hi => (C2_local_scan_block_sums [1, 2, 3, 4] [0, 0, 0, 0] 4 4 4 (by decide)
      (by decide)).2.2.2.2.1 (by decide) rfl i hi hi hi,
   by decide⟩

theorem getD_take (xs : List Nat) (size k : Nat) : (xs.take size).getD k 0 = cell xs size k := by
  unfold cell
  rw [List.getD_eq_getElem?_getD, List.getElem?_take]
  split
  · rw [List.getD_eq_getElem?_getD]
  · rfl

/-- The total of block `b`, as the store of lane 0 puts it into `next[b]`. -/
theorem local_scan_next_value {input : List Nat} (hu : is_u32 input) (next : List Nat)
    (size G B b : Nat) (hB : 1 ≤ B) (hb : b < next.length) (hG : b < G / B) :
    (local_scan_next input next size G B).getD b 0 =
      (((input.take size).drop (b * B)).take B).sum % U32 := by
  rw [local_scan_next_getD _ _ _ _ _ _ hb, if_pos hG]
  rw [← Nat.mod_eq_of_lt (local_scan_temp_bound hu size B b (B - 1)),
    local_scan_temp_cells _ _ _ _ _ (by omega : B - 1 < B), sum_drop_take_eq]
  have : B - 1 + 1 = B := by omega
  rw [this]
  congr 1
  apply sum_upto_congr
  intro k _
  rw [getD_take]

/-- C13: after a dispatch of `local_scan` with a side array `next`, slot `g`
of `next` holds, for every work-group `g` of the dispatch, the sum modulo
`2^32` of the elements of block `g` that lie below `size`; slots of no
work-group keep their value; with `next` null the dispatch writes its output
buffer only. -/
theorem C13_block_aggregate (input next : List Nat) (size G B : Nat) (hB : 1 ≤ B)
    (hu : is_u32 input) :
    (local_scan_next input next size G B).length = next.length ∧
    (∀ g, g < G / B → g < next.length →
      (local_scan_next input next size G B).getD g 0 =
        (((input.take size).drop (g * B)).take (min ((g + 1) * B) size - g * B)).sum % U32) ∧
    (∀ g, G / B ≤ g →
      (local_scan_next input next size G B).getD g 0 = next.getD g 0) ∧
    (∀ (m : Memory) (src dst : Buffer),
      Dispatch.run m (.local_scan src dst none size G B) =
        m.write dst (local_scan_output (m.read src) (m.read dst) size G B)) := by
  refine ⟨local_scan_next_length _ _ _ _ _, ?_, ?_, ?_⟩
  · intro g hG hg
    rw [local_scan_next_value hu next size G B g hB hg hG]
    congr 1
    rw [sum_drop_take_eq, sum_drop_take_eq]
    have hspl : (g + 1) * B = g * B + B := by ring
    rcases Nat.lt_or_ge size ((g + 1) * B) with hlt | hge
    · rw [Nat.min_eq_right (Nat.le_of_lt hlt)]
      obtain ⟨d, hd⟩ : ∃ d, size - g * B + d = B := ⟨B - (size - g * B), by omega⟩
      have h := sum_upto_add (fun k => (input.take size).getD (g * B + k) 0) (size - g * B) d
      rw [hd] at h
      have hz : sum_upto (fun k => (input.take size).getD (g * B + (size - g * B + k)) 0) d
          = sum_upto (fun _ => 0) d := by
        apply sum_upto_congr
        intro k _
        rw [getD_take]
        unfold cell
        rw [if_neg (by omega)]
      rw [h, hz, sum_upto_zero_fun, Nat.add_zero]
    · rw [Nat.min_eq_left hge, hspl, Nat.add_sub_cancel_left]
  · intro g hge
    rcases Nat.lt_or_ge g next.length with hg | hg
    · rw [local_scan_next_getD _ _ _ _ _ _ hg, if_neg (by omega)]
    · rw [List.getD_eq_getElem?_getD, List.getD_eq_getElem?_getD,
        List.getElem?_eq_none (by rw [local_scan_next_length]; exact hg),
        List.getElem?_eq_none hg]
  · intro m src dst
    rfl

/-- C13 on the input `[1,2,3,4,5]` in blocks of 2 (three work-groups). -/
theorem C13_block_aggregate_witness :
    is_u32 [1, 2, 3, 4, 5] ∧
    local_scan_next [1, 2, 3, 4, 5] [0, 0, 0, 0] 5 6 2 = [3, 7, 5, 0] ∧
    (∀ g, g < 6 / 2 → g < [0, 0, 0, 0].length →
      (local_scan_next [1, 2, 3, 4, 5] [0, 0, 0, 0] 5 6 2).getD g 0 =
        ((([1, 2, 3, 4, 5].take 5).drop (g * 2)).take (min ((g + 1) * 2) 5 - g * 2)).sum
          % U32) :=
  ⟨by decide, by decide,
   (C13_block_aggregate [1, 2, 3, 4, 5] [0, 0, 0, 0] 5 6 2 (by decide) (by decide)).2.1⟩

/-- C14: one dispatch of `fixup_scan` over `G` lanes in blocks of `B`: every
element at an index `i` with `B <= i < min(size, B + G)` gets the carry
`next[i / B - 1]` added modulo `2^32`; every other element of `output`, block
0 and the indices from `size` on included, keeps its value. -/
theorem C14_fixup_adds_carry (output next : List Nat) (size G B : Nat) (hB : 1 ≤ B) :
    (fixup_scan_output output next size G B).length = output.length ∧
    (∀ i, B ≤ i → i < min size (B + G) → i < output.length →
      (fixup_scan_output output next size G B).getD i 0 =
        (output.getD i 0 + next.getD (i / B - 1) 0) % U32) ∧
    (∀ i, ¬ (B ≤ i ∧ i < min size (B + G)) →
      (fixup_scan_output output next size G B).getD i 0 = output.getD i 0) := by
  refine ⟨fixup_scan_output_length _ _ _ _ _, ?_, ?_⟩
  · intro i h1 h2 h3
    have h4 : i < size ∧ i < B + G := by simpa using h2
    rw [fixup_scan_output_getD _ _ _ _ _ _ h3, if_pos ⟨h1, by omega, h4.1⟩]
    have : i / B = (i - B) / B + 1 := by
      conv_lhs => rw [show i = (i - B) + B by omega]
      exact Nat.add_div_right (i - B) (by omega : 0 < B)
    have e : (i - B) / B = i / B - 1 := by rw [this, Nat.add_sub_cancel]
    rw [e]
  · intro i hn
    rcases Nat.lt_or_ge i output.length with hi | hi
    · rw [fixup_scan_output_getD _ _ _ _ _ _ hi, if_neg]
      intro h
      apply hn
      refine ⟨h.1, ?_⟩
      simp only [lt_min_iff]
      omega
    · rw [List.getD_eq_getElem?_getD, List.getD_eq_getElem?_getD,
        List.getElem?_eq_none (by rw [fixup_scan_output_length]; exact hi),
        List.getElem?_eq_none hi]

/-- C14 on six elements in blocks of 2 with carries 10 and 20. -/
theorem C14_fixup_adds_carry_witness :
    fixup_scan_output [1, 2, 3, 4, 5, 6, 7] [10, 20] 6 4 2 = [1, 2, 13, 14, 25, 26, 7] ∧
    (∀ i, 2 ≤ i → i < min 6 (2 + 4) → i < [1, 2, 3, 4, 5, 6, 7].length →
      (fixup_scan_output [1, 2, 3, 4, 5, 6, 7] [10, 20] 6 4 2).getD i 0 =
        (([1, 2, 3, 4, 5, 6, 7] : List Nat).getD i 0 + ([10, 20] : List Nat).getD (i / 2 - 1) 0)
          % U32) :=
  ⟨by decide, (C14_fixup_adds_carry [1, 2, 3, 4, 5, 6, 7] [10, 20] 6 4 2 (by decide)).2.1⟩

/-! ## The enqueues of `inclusive_scan` -/

theorem chain_length (ds : List Dispatch) (first : Nat) (wait : List Nat) :
    (chain ds first wait).length = ds.length := by
  induction ds generalizing first wait with
  | nil => rfl
  | cons d ds ih => simp [chain, ih]

theorem chain_map_dispatch (ds : List Dispatch) (first : Nat) (wait : List Nat) :
    (chain ds first wait).map (fun e => e.dispatch) = ds := by
  induction ds generalizing first wait with
  | nil => rfl
  | cons d ds ih => simp [chain, ih]

theorem chain_cons (d : Dispatch) (ds : List Dispatch) (first : Nat) (wait : List Nat) :
    chain (d :: ds) first wait =
      { dispatch := d, wait_list := wait, event := first } :: chain ds (first + 1) [first] :=
  rfl

/-- The step of a loop that enqueues given dispatches in a chain. -/
theorem foldl_enqueue_list (ds : List Dispatch) (q : Queue) (e : Nat) :
    ds.foldl (fun (st : Queue × Nat) d => st.1.enqueue_1d_range_kernel d [st.2]) (q, e) =
      ({ enqueued := q.enqueued ++ chain ds q.next_event [e]
         next_event := q.next_event + ds.length },
       if ds = [] then e else q.next_event + ds.length - 1) := by
  induction ds generalizing q e with
  | nil => simp [chain]
  | cons d ds ih =>
    rw [List.foldl_cons]
    have h := ih { enqueued := q.enqueued ++
                     [{ dispatch := d, wait_list := [e], event := q.next_event }]
                   next_event := q.next_event + 1 } q.next_event
    refine Eq.trans h ?_
    dsimp only
    rw [chain_cons, if_neg (List.cons_ne_nil d ds), List.length_cons]
    have e1 : q.next_event + 1 + ds.length = q.next_event + (ds.length + 1) := by omega
    have e2 : (if ds = [] then q.next_event else q.next_event + 1 + ds.length - 1)
        = q.next_event + (ds.length + 1) - 1 := by
      by_cases h : ds = []
      · subst h; simp
      · rw [if_neg h]
        omega
    rw [e2, e1]
    simp only [List.append_assoc, List.singleton_append]

theorem foldl_range'_one {β : Type} (f : β → Nat → β) (n : Nat) (b : β) :
    (List.range' 1 n).foldl f b = (List.range n).foldl (fun b i => f b (i + 1)) b := by
  rw [List.range'_eq_map_range, List.foldl_map]
  simp only [Nat.add_comm]

theorem foldl_range'_one_reverse {β : Type} (f : β → Nat → β) (n : Nat) (b : β) :
    (List.range' 1 n).reverse.foldl f b =
      (List.range n).reverse.foldl (fun b i => f b (i + 1)) b := by
  rw [List.range'_eq_map_range, ← List.map_reverse, List.foldl_map]
  simp only [Nat.add_comm]

theorem enqueue_then_chain (q : Queue) (d0 : Dispatch) (events : List Nat)
    (ds : List Dispatch) :
    ds.foldl (fun (st : Queue × Nat) d => st.1.enqueue_1d_range_kernel d [st.2])
        (q.enqueue_1d_range_kernel d0 events) =
      ({ enqueued := q.enqueued ++ chain (d0 :: ds) q.next_event events
         next_event := q.next_event + (d0 :: ds).length },
       q.next_event + (d0 :: ds).length - 1) := by
  have h := foldl_enqueue_list ds
    { enqueued := q.enqueued ++ [{ dispatch := d0, wait_list := events, event := q.next_event }]
      next_event := q.next_event + 1 } q.next_event
  refine Eq.trans h ?_
  dsimp only
  rw [chain_cons, List.length_cons]
  have e1 : q.next_event + 1 + ds.length = q.next_event + (ds.length + 1) := by omega
  have e2 : (if ds = [] then q.next_event else q.next_event + 1 + ds.length - 1)
      = q.next_event + (ds.length + 1) - 1 := by
    by_cases h : ds = []
    · subst h; simp
    · rw [if_neg h]
      omega
  rw [e2, e1]
  simp only [List.append_assoc, List.singleton_append]

/-- The host part of `inclusive_scan`: when the assertion holds and the cache
update returns, the call appends the schedule to the queue as one chain that
starts on the caller's wait-list, and returns the last event. -/
theorem inclusive_scan_returns {fuel : Nat} {s s1 : Scan} {n m : Nat} (q : Queue)
    (events : List Nat) (hm : n ≤ m) (he : ensure_buffers_ready fuel s n = some s1) :
    inclusive_scan fuel s n m q events =
      .returned s1
        { enqueued := q.enqueued ++ chain (schedule s1 n m) q.next_event events
          next_event := q.next_event + (schedule s1 n m).length }
        (q.next_event + (schedule s1 n m).length - 1) := by
  have hdown : ∀ st : Queue × Nat,
      (List.range' 1 s1.m_phases.length).foldl (down_step s1) st =
        ((List.range s1.m_phases.length).map (fun i =>
          Dispatch.local_scan (.phase i) (.phase i)
            (if i + 1 < s1.m_phases.length then some (.phase (i + 1)) else none)
            (s1.m_phases.getD i []).length (s1.m_phases.getD i []).length
            s1.m_block_size)).foldl
          (fun (st : Queue × Nat) d => st.1.enqueue_1d_range_kernel d [st.2]) st := by
    intro st
    rw [foldl_range'_one, List.foldl_map]
    rfl
  have hup : ∀ st : Queue × Nat,
      (List.range' 1 (s1.m_phases.length - 1)).reverse.foldl (up_step s1) st =
        ((List.range (s1.m_phases.length - 1)).reverse.map (fun i =>
          Dispatch.fixup_scan (.phase i) (.phase (i + 1))
            (s1.m_phases.getD i []).length (s1.m_phases.getD i []).length
            s1.m_block_size)).foldl
          (fun (st : Queue × Nat) d => st.1.enqueue_1d_range_kernel d [st.2]) st := by
    intro st
    rw [foldl_range'_one_reverse, List.foldl_map]
    rfl
  unfold inclusive_scan
  rw [if_neg (by omega), he]
  dsimp only
  rw [hdown]
  by_cases hL : s1.m_phases.length = 0
  · rw [if_neg (by simpa using hL), enqueue_then_chain]
    have hs : schedule s1 n m =
        Dispatch.local_scan .input .output none n s1.m_aligned_size s1.m_block_size ::
          (List.range s1.m_phases.length).map (fun i =>
            Dispatch.local_scan (.phase i) (.phase i)
              (if i + 1 < s1.m_phases.length then some (.phase (i + 1)) else none)
              (s1.m_phases.getD i []).length (s1.m_phases.getD i []).length
              s1.m_block_size) := by
      simp [schedule, hL]
    rw [hs]
    simp [hL]
  · rw [if_pos hL, hup]
    have hfin : ∀ (st : Queue × Nat) (d : Dispatch),
        st.1.enqueue_1d_range_kernel d [st.2] =
          [d].foldl (fun (st : Queue × Nat) d => st.1.enqueue_1d_range_kernel d [st.2]) st := by
      intro st d; rfl
    rw [hfin, ← List.foldl_append, ← List.foldl_append, enqueue_then_chain]
    have hs : schedule s1 n m =
        Dispatch.local_scan .input .output (some (.phase 0)) n s1.m_aligned_size
            s1.m_block_size ::
          ((List.range s1.m_phases.length).map (fun i =>
            Dispatch.local_scan (.phase i) (.phase i)
              (if i + 1 < s1.m_phases.length then some (.phase (i + 1)) else none)
              (s1.m_phases.getD i []).length (s1.m_phases.getD i []).length
              s1.m_block_size) ++
          ((List.range (s1.m_phases.length - 1)).reverse.map (fun i =>
            Dispatch.fixup_scan (.phase i) (.phase (i + 1))
              (s1.m_phases.getD i []).length (s1.m_phases.getD i []).length
              s1.m_block_size) ++
          [Dispatch.fixup_scan .output (.phase 0) m (s1.m_aligned_size - s1.m_block_size)
              s1.m_block_size])) := by
      simp [schedule, hL]
    rw [hs]
    simp [hL]

/-- A returning call of `inclusive_scan` passed its assertion and got its
coordinator state from `ensure_buffers_ready`. -/
theorem inclusive_scan_returned_inv {fuel : Nat} {s s1 : Scan} {n m : Nat} {q q1 : Queue}
    {events : List Nat} {ev : Nat}
    (h : inclusive_scan fuel s n m q events = .returned s1 q1 ev) :
    n ≤ m ∧ ensure_buffers_ready fuel s n = some s1 := by
  by_cases hm : n ≤ m
  · refine ⟨hm, ?_⟩
    cases he : ensure_buffers_ready fuel s n with
    | none =>
      unfold inclusive_scan at h
      rw [if_neg (by omega), he] at h
      cases h
    | some s2 =>
      rw [inclusive_scan_returns q events hm he] at h
      injection h with h1 _ _
      rw [h1]
  · unfold inclusive_scan at h
    rw [if_pos (by omega)] at h
    cases h

theorem chain_getElem? (ds : List Dispatch) (first : Nat) (wait : List Nat) (i : Nat) :
    (chain ds first wait)[i]? =
      (ds[i]?).map (fun d =>
        { dispatch := d, wait_list := if i = 0 then wait else [first + i - 1],
          event := first + i }) := by
  induction ds generalizing first wait i with
  | nil => simp [chain]
  | cons d ds ih =>
    rw [chain_cons]
    cases i with
    | zero => simp
    | succ i =>
      rw [List.getElem?_cons_succ, List.getElem?_cons_succ, ih]
      cases ds[i]? with
      | none => rfl
      | some d1 =>
        simp only [Option.map_some', Option.some.injEq, Enqueued.mk.injEq, true_and]
        refine ⟨?_, by omega⟩
        rw [if_neg (Nat.succ_ne_zero i)]
        by_cases hi : i = 0
        · subst hi; simp
        · rw [if_neg hi]
          congr 1
          omega

/-- C18: the dispatches one call of `inclusive_scan` enqueues form a linear
chain: the first waits on the caller's `events`, every later one on exactly
the event of the dispatch enqueued just before it, and the event returned to
the caller is the event of the last dispatch. -/
theorem C18_linear_dependency_chain (fuel : Nat) (s s1 : Scan) (n m : Nat) (q q1 : Queue)
    (events : List Nat) (ev : Nat)
    (h : inclusive_scan fuel s n m q events = .returned s1 q1 ev) :
    q1.enqueued.take q.enqueued.length = q.enqueued ∧
    0 < (q1.enqueued.drop q.enqueued.length).length ∧
    ((q1.enqueued.drop q.enqueued.length)[0]?).map (fun e => e.wait_list) = some events ∧
    (∀ i, i + 1 < (q1.enqueued.drop q.enqueued.length).length →
      ((q1.enqueued.drop q.enqueued.length)[i + 1]?).map (fun e => e.wait_list) =
        ((q1.enqueued.drop q.enqueued.length)[i]?).map (fun e => [e.event])) ∧
    ((q1.enqueued.drop q.enqueued.length).getLast?).map (fun e => e.event) = some ev := by
  obtain ⟨hm, he⟩ := inclusive_scan_returned_inv h
  rw [inclusive_scan_returns q events hm he] at h
  injection h with _ h2 h3
  subst h2
  dsimp only
  rw [List.take_left, List.drop_left]
  have hlen : 0 < (schedule s1 n m).length := by simp [schedule]
  refine ⟨rfl, by rw [chain_length]; exact hlen, ?_, ?_, ?_⟩
  · rw [chain_getElem?, List.getElem?_eq_getElem hlen]
    rfl
  · intro i hi
    rw [chain_length] at hi
    rw [chain_getElem?, chain_getElem?, List.getElem?_eq_getElem hi,
      List.getElem?_eq_getElem (by omega : i < (schedule s1 n m).length)]
    simp
  · rw [List.getLast?_eq_getElem?, chain_length, chain_getElem?,
      List.getElem?_eq_getElem (by omega)]
    simp only [Option.map_some', Option.some.injEq]
    omega

/-- C18 on a fresh coordinator with block size 2 and 5 elements: three
dispatches, waiting on the caller's event 7, on event 0 and on event 1; the
call returns event 2. -/
theorem C18_linear_dependency_chain_witness :
    inclusive_scan 5 (Scan.construct 2 2) 5 5 { enqueued := [], next_event := 0 } [7] =
      .returned
        { m_last_input_size := 5, m_aligned_size := 6, m_block_size := 2, m_phases := [[0, 0]] }
        { enqueued :=
            [{ dispatch := .local_scan .input .output (some (.phase 0)) 5 6 2,
               wait_list := [7], event := 0 },
             { dispatch := .local_scan (.phase 0) (.phase 0) none 2 2 2,
               wait_list := [0], event := 1 },
             { dispatch := .fixup_scan .output (.phase 0) 5 4 2,
               wait_list := [1], event := 2 }],
          next_event := 3 } 2 ∧
    (([{ dispatch := .local_scan .input .output (some (.phase 0)) 5 6 2,
         wait_list := [7], event := 0 },
       { dispatch := .local_scan (.phase 0) (.phase 0) none 2 2 2,
         wait_list := [0], event := 1 },
       { dispatch := .fixup_scan .output (.phase 0) 5 4 2,
         wait_list := [1], event := 2 }] : List Enqueued).drop 0)[0]?.map
      (fun e => e.wait_list) = some [7] :=
  have h : inclusive_scan 5 (Scan.construct 2 2) 5 5 { enqueued := [], next_event := 0 } [7] =
      .returned
        { m_last_input_size := 5, m_aligned_size := 6, m_block_size := 2, m_phases := [[0, 0]] }
        { enqueued :=
            [{ dispatch := .local_scan .input .output (some (.phase 0)) 5 6 2,
               wait_list := [7], event := 0 },
             { dispatch := .local_scan (.phase 0) (.phase 0) none 2 2 2,
               wait_list := [0], event := 1 },
             { dispatch := .fixup_scan .output (.phase 0) 5 4 2,
               wait_list := [1], event := 2 }],
          next_event := 3 } 2 := by decide
  ⟨h, (C18_linear_dependency_chain 5 (Scan.construct 2 2) _ 5 5 _ _ [7] 2 h).2.2.1⟩

/-- C16: a returning call of `inclusive_scan` on a coordinator that ends up
with `L` Levels appends to the queue exactly the dispatches of `schedule`, in
that order: `L + 1` dispatches of `local_scan` followed by `L` dispatches of
`fixup_scan`; with `L = 0` it is the single `local_scan` with no side
output. -/
theorem C16_dispatch_schedule (fuel : Nat) (s s1 : Scan) (n m : Nat) (q q1 : Queue)
    (events : List Nat) (ev : Nat)
    (h : inclusive_scan fuel s n m q events = .returned s1 q1 ev) :
    q1.enqueued.take q.enqueued.length = q.enqueued ∧
    (q1.enqueued.drop q.enqueued.length).map (fun e => e.dispatch) = schedule s1 n m ∧
    (∃ locals fixups, schedule s1 n m = locals ++ fixups ∧
      locals.length = s1.m_phases.length + 1 ∧ fixups.length = s1.m_phases.length ∧
      (∀ d ∈ locals, d.is_local_scan = true) ∧ (∀ d ∈ fixups, d.is_local_scan = false)) ∧
    (s1.m_phases.length = 0 →
      schedule s1 n m =
        [.local_scan .input .output none n s1.m_aligned_size s1.m_block_size]) := by
  obtain ⟨hm, he⟩ := inclusive_scan_returned_inv h
  rw [inclusive_scan_returns q events hm he] at h
  injection h with _ h2 h3
  subst h2
  dsimp only
  rw [List.take_left, List.drop_left, chain_map_dispatch]
  refine ⟨rfl, rfl, ?_, ?_⟩
  · refine ⟨[Dispatch.local_scan .input .output
        (if s1.m_phases.length = 0 then none else some (.phase 0)) n s1.m_aligned_size
        s1.m_block_size] ++
      (List.range s1.m_phases.length).map (fun i =>
        Dispatch.local_scan (.phase i) (.phase i)
          (if i + 1 < s1.m_phases.length then some (.phase (i + 1)) else none)
          (s1.m_phases.getD i []).length (s1.m_phases.getD i []).length s1.m_block_size),
      (List.range (s1.m_phases.length - 1)).reverse.map (fun i =>
        Dispatch.fixup_scan (.phase i) (.phase (i + 1))
          (s1.m_phases.getD i []).length (s1.m_phases.getD i []).length s1.m_block_size) ++
      (if s1.m_phases.length = 0 then []
        else [Dispatch.fixup_scan .output (.phase 0) m
                (s1.m_aligned_size - s1.m_block_size) s1.m_block_size]),
      ?_, ?_, ?_, ?_, ?_⟩
    · simp [schedule]
    · simp
    · by_cases hL : s1.m_phases.length = 0
      · simp [hL]
      · simp [hL]
        omega
    · intro d hd
      simp only [List.mem_append, List.mem_singleton, List.mem_map] at hd
      rcases hd with rfl | ⟨i, _, rfl⟩ <;> rfl
    · intro d hd
      simp only [List.mem_append, List.mem_map] at hd
      rcases hd with ⟨i, _, rfl⟩ | hd
      · rfl
      · by_cases hL : s1.m_phases.length = 0
        · simp [hL] at hd
        · simp [hL] at hd
          subst hd
          rfl
  · intro hL
    simp [schedule, hL]

/-- C16 on a fresh coordinator with block size 2 and 11 elements (two
Levels): three `local_scan` dispatches, then two `fixup_scan` dispatches. -/
theorem C16_dispatch_schedule_witness :
    ∃ s1 q1 ev,
      inclusive_scan 11 (Scan.construct 2 2) 11 11 { enqueued := [], next_event := 0 } [] =
        .returned s1 q1 ev ∧
      q1.enqueued.map (fun e => e.dispatch) =
        [.local_scan .input .output (some (.phase 0)) 11 12 2,
         .local_scan (.phase 0) (.phase 0) (some (.phase 1)) 6 6 2,
         .local_scan (.phase 1) (.phase 1) none 2 2 2,
         .fixup_scan (.phase 0) (.phase 1) 6 6 2,
         .fixup_scan .output (.phase 0) 11 10 2] ∧
      (q1.enqueued.drop 0).map (fun e => e.dispatch) = schedule s1 11 11 :=
  have h : inclusive_scan 11 (Scan.construct 2 2) 11 11 { enqueued := [], next_event := 0 } [] =
      .returned
        { m_last_input_size := 11, m_aligned_size := 12, m_block_size := 2,
          m_phases := [[0, 0, 0, 0, 0, 0], [0, 0]] }
        { enqueued := chain
            [.local_scan .input .output (some (.phase 0)) 11 12 2,
             .local_scan (.phase 0) (.phase 0) (some (.phase 1)) 6 6 2,
             .local_scan (.phase 1) (.phase 1) none 2 2 2,
             .fixup_scan (.phase 0) (.phase 1) 6 6 2,
             .fixup_scan .output (.phase 0) 11 10 2] 0 [],
          next_event := 5 } 4 := by decide
  ⟨_, _, _, h, by decide,
    (C16_dispatch_schedule 11 (Scan.construct 2 2) _ 11 11 _ _ [] 4 h).2.1⟩

/-- C12: with a block size of at least 2 the level loop exits and builds
exactly `k` Levels, `k` being the least number with `n / B^k <= B`;
`Level[i]` has `align_up(n / B^(i+1), B)` slots; no Level is built exactly
when the input fits one block, and then `inclusive_scan` enqueues the single
`local_scan` with no side output and nothing else. -/
theorem C12_level_count (s : Scan) (n fuel : Nat) (hB : 2 ≤ s.m_block_size)
    (hne : s.m_last_input_size ≠ n) (hf : n ≤ fuel) :
    ∃ k s1, ensure_buffers_ready fuel s n = some s1 ∧
      n / s.m_block_size ^ k ≤ s.m_block_size ∧
      (∀ i, i < k → s.m_block_size < n / s.m_block_size ^ i) ∧
      s1.m_phases.length = k ∧
      (∀ i, i < k →
        (s1.m_phases.getD i []).length =
          align_to_block_size (n / s.m_block_size ^ (i + 1)) s.m_block_size) ∧
      (k = 0 ↔ n ≤ s.m_block_size) ∧
      (n ≤ s.m_block_size → ∀ (m : Nat) (q : Queue) (events : List Nat), n ≤ m →
        inclusive_scan fuel s n m q events =
          .returned s1
            { enqueued := q.enqueued ++
                [{ dispatch := .local_scan .input .output none n s1.m_aligned_size
                                 s1.m_block_size,
                   wait_list := events, event := q.next_event }]
              next_event := q.next_event + 1 }
            q.next_event) := by
  obtain ⟨k, s1, hk, he, hl, hp, -, -, -⟩ := ensure_rebuild_spec s n fuel hB hne hf
  have hlen : s1.m_phases.length = k := by
    have := congrArg List.length hl
    simpa [Scan.phase_lengths, level_lengths_length] using this
  have hk0 : k = 0 ↔ n ≤ s.m_block_size := by
    constructor
    · intro h
      have := hk.1
      rwa [h, running_size_zero] at this
    · intro h
      rcases Nat.eq_zero_or_pos k with h0 | h0
      · exact h0
      · have := hk.2 0 h0
        rw [running_size_zero] at this
        omega
  refine ⟨k, s1, he, hk.1, hk.2, hlen, ?_, hk0, ?_⟩
  · intro i hi
    have h1 := level_lengths_getD s.m_block_size n k i hi
    rw [← hl] at h1
    unfold Scan.phase_lengths at h1
    rw [List.getD_eq_getElem?_getD, List.getElem?_map] at h1
    rw [List.getD_eq_getElem?_getD]
    have hi2 : i < s1.m_phases.length := by omega
    rw [List.getElem?_eq_getElem hi2] at h1 ⊢
    simpa [running_size] using h1
  · intro hn m q events hm
    have hL : s1.m_phases.length = 0 := by rw [hlen]; exact hk0.mpr hn
    rw [inclusive_scan_returns q events hm he]
    have hs : schedule s1 n m =
        [.local_scan .input .output none n s1.m_aligned_size s1.m_block_size] := by
      simp [schedule, hL]
    rw [hs]
    rfl

/-- C12 at block size 2 and 37 elements: four Levels, and `37 / 2^4 = 2`. -/
theorem C12_level_count_witness :
    (ensure_buffers_ready 37 (Scan.construct 2 2) 37).map Scan.phase_lengths
      = some [18, 10, 4, 2] ∧
    ∃ k s1, ensure_buffers_ready 37 (Scan.construct 2 2) 37 = some s1 ∧
      37 / (Scan.construct 2 2).m_block_size ^ k ≤ (Scan.construct 2 2).m_block_size ∧
      (∀ i, i < k → (Scan.construct 2 2).m_block_size
        < 37 / (Scan.construct 2 2).m_block_size ^ i) ∧
      s1.m_phases.length = k :=
  ⟨by decide,
   match C12_level_count (Scan.construct 2 2) 37 37 (by decide) (by decide) (by decide) with
   | ⟨k, s1, h1, h2, h3, h4, _⟩ => ⟨k, s1, h1, h2, h3, h4⟩⟩

/-- C19: for a block size of at least 1, `align_to_block_size x B` is the
least multiple of `B` that is at least `x`: it is divisible by `B`, lies in
`[x, x + B)`, is below every other such multiple, returns `x` when `x` is a
multiple, is idempotent and maps 0 to 0; a rebuilding call of
`ensure_buffers_ready` stores it in `m_aligned_size`, which the first
dispatch of `inclusive_scan` takes as its global size. -/
theorem C19_align_least_multiple (x B : Nat) (hB : 1 ≤ B) :
    B ∣ align_to_block_size x B ∧
    x ≤ align_to_block_size x B ∧
    align_to_block_size x B < x + B ∧
    (∀ m, B ∣ m → x ≤ m → align_to_block_size x B ≤ m) ∧
    (B ∣ x → align_to_block_size x B = x) ∧
    align_to_block_size (align_to_block_size x B) B = align_to_block_size x B ∧
    align_to_block_size 0 B = 0 ∧
    (∀ (fuel : Nat) (s s1 : Scan), s.m_block_size = B → s.m_last_input_size ≠ x →
      ensure_buffers_ready fuel s x = some s1 →
      s1.m_aligned_size = align_to_block_size x B ∧
      ∀ m, (schedule s1 x m).head? =
        some (.local_scan .input .output
          (if s1.m_phases.length = 0 then none else some (.phase 0)) x
          (align_to_block_size x B) B)) := by
  refine ⟨align_dvd x hB, le_align x B, align_lt_add x hB,
    fun m hm hx => align_le_of_dvd hB hm hx, align_eq_self_of_dvd,
    align_eq_self_of_dvd (align_dvd x hB), align_zero B, ?_⟩
  intro fuel s s1 hsB hne he
  obtain ⟨k, -, hs1⟩ := ensure_rebuild hne he
  subst hs1
  subst hsB
  exact ⟨rfl, fun m => rfl⟩

/-- C19 at `x = 5`, `B = 2`. -/
theorem C19_align_least_multiple_witness :
    align_to_block_size 5 2 = 6 ∧ 2 ∣ align_to_block_size 5 2 ∧
    5 ≤ align_to_block_size 5 2 ∧ align_to_block_size 5 2 < 5 + 2 :=
  ⟨by decide, (C19_align_least_multiple 5 2 (by decide)).1,
   (C19_align_least_multiple 5 2 (by decide)).2.1,
   (C19_align_least_multiple 5 2 (by decide)).2.2.1⟩

/-- C11 evaluated at block size 2 and 5 elements: `Level[0]` gets 2 slots
while the padded input has `6 / 2 = 3` blocks, so the first dispatch, whose 3
work-groups each store `next[get_group_id(0)]`, is not inside `Level[0]`.
The same at block size 256 and 65537 elements: 256 slots for 257 blocks. -/
theorem C11_next_out_of_bounds_at_5 :
    (ensure_buffers_ready 5 (Scan.construct 2 2) 5).map Scan.phase_lengths = some [2] ∧
    align_to_block_size 5 2 / 2 = 3 ∧
    (loop_run 256 65537 (loop_init 65537)).map (fun st => st.lengths) = some [256] ∧
    align_to_block_size 65537 256 / 256 = 257 ∧
    (schedule { m_last_input_size := 5, m_aligned_size := 6, m_block_size := 2,
                m_phases := [[0, 0]] } 5 5).map
      (Dispatch.next_in_bounds { input := [1, 1, 1, 1, 1], output := [0, 0, 0, 0, 0],
                                 phases := [[0, 0]] })
      = [false, true, true] := by
  decide

/-- C11 evaluated at block size 2 and 11 elements: `Level[0]` has 6 slots,
`Level[1]` has 2, fewer than `6 / 2`; the in-place `local_scan` over
`Level[0]` and the `fixup_scan` on `Level[0]` run 3 work-groups on the 2 slots
of `Level[1]`. -/
theorem C11_next_out_of_bounds_at_11 :
    (ensure_buffers_ready 11 (Scan.construct 2 2) 11).map Scan.phase_lengths = some [6, 2] ∧
    (schedule { m_last_input_size := 11, m_aligned_size := 12, m_block_size := 2,
                m_phases := [[0, 0, 0, 0, 0, 0], [0, 0]] } 11 11).map
      (Dispatch.next_in_bounds { input := List.replicate 11 1, output := List.replicate 11 0,
                                 phases := [[0, 0, 0, 0, 0, 0], [0, 0]] })
      = [true, false, true, false, true] := by
  decide

/-- C15 evaluated at block size 2, input `[1,1,1]` and an output of 4
elements: the final `fixup_scan` gets `output.size()` as its `size`, so it
adds the carry 2 to `output[3]`, which lies beyond the input. -/
theorem C15_output_tail_at_3 :
    (scan 3 (Scan.construct 2 2) [1, 1, 1] [0, 0, 0, 7]).map (fun r => r.2)
      = some [1, 2, 3, 9] := by
  decide

/-! ## Running the schedule on device memory -/

theorem run_all_chain (m : Memory) (ds : List Dispatch) (first : Nat) (wait : List Nat) :
    run_all m (chain ds first wait) = ds.foldl (fun m d => d.run m) m := by
  unfold run_all
  induction ds generalizing m first wait with
  | nil => rfl
  | cons d ds ih =>
    rw [chain_cons, List.foldl_cons, List.foldl_cons]
    exact ih _ _ _

theorem getD_append_length (pre : List (List Nat)) (X : List Nat) (rest : List (List Nat)) :
    (pre ++ X :: rest).getD pre.length [] = X := by
  induction pre with
  | nil => rfl
  | cons a pre ih => simpa using ih

theorem set_append_length (pre : List (List Nat)) (X v : List Nat) (rest : List (List Nat)) :
    (pre ++ X :: rest).set pre.length v = pre ++ v :: rest := by
  induction pre with
  | nil => rfl
  | cons a pre ih => simp [ih]

theorem getD_append_length_succ (pre : List (List Nat)) (X Y : List Nat)
    (rest : List (List Nat)) :
    (pre ++ X :: Y :: rest).getD (pre.length + 1) [] = Y := by
  have := getD_append_length (pre ++ [X]) Y rest
  simpa using this

theorem set_append_length_succ (pre : List (List Nat)) (X Y v : List Nat)
    (rest : List (List Nat)) :
    (pre ++ X :: Y :: rest).set (pre.length + 1) v = pre ++ X :: v :: rest := by
  induction pre with
  | nil => rfl
  | cons a pre ih => simp

/-- An in-place `local_scan` over the Level at index `pre.length`, with the
next Level as side output. -/
theorem run_down_next (m : Memory) (pre : List (List Nat)) (X Y : List Nat)
    (rest : List (List Nat)) (size G B : Nat) (hm : m.phases = pre ++ X :: Y :: rest) :
    Dispatch.run m (.local_scan (.phase pre.length) (.phase pre.length)
        (some (.phase (pre.length + 1))) size G B) =
      { m with phases := pre ++ local_scan_output X X size G B ::
                 local_scan_next X Y size G B :: rest } := by
  simp only [Dispatch.run, Memory.read, Memory.write, hm, getD_append_length,
    set_append_length, getD_append_length_succ, set_append_length_succ]

/-- An in-place `local_scan` over the last Level, without side output. -/
theorem run_down_last (m : Memory) (pre : List (List Nat)) (X : List Nat)
    (rest : List (List Nat)) (size G B : Nat) (hm : m.phases = pre ++ X :: rest) :
    Dispatch.run m (.local_scan (.phase pre.length) (.phase pre.length) none size G B) =
      { m with phases := pre ++ local_scan_output X X size G B :: rest } := by
  simp only [Dispatch.run, Memory.read, Memory.write, hm, getD_append_length,
    set_append_length]

/-- A `fixup_scan` on the Level at index `pre.length` with the carries of the
next Level. -/
theorem run_up (m : Memory) (pre : List (List Nat)) (X Y : List Nat)
    (rest : List (List Nat)) (size G B : Nat) (hm : m.phases = pre ++ X :: Y :: rest) :
    Dispatch.run m (.fixup_scan (.phase pre.length) (.phase (pre.length + 1)) size G B) =
      { m with phases := pre ++ fixup_scan_output X Y size G B :: Y :: rest } := by
  simp only [Dispatch.run, Memory.read, Memory.write, hm, getD_append_length,
    set_append_length, getD_append_length_succ]

theorem getD_map_length (P : List (List Nat)) (i : Nat) :
    (P.map List.length).getD i 0 = (P.getD i []).length := by
  rw [List.getD_eq_getElem?_getD, List.getD_eq_getElem?_getD, List.getElem?_map]
  cases P[i]? <;> rfl

theorem lens_at_length {pre : List (List Nat)} {X : List Nat} {rest : List (List Nat)}
    {ls : List Nat} (hl : (pre ++ X :: rest).map List.length = ls) :
    ls.getD pre.length 0 = X.length := by
  rw [← hl, getD_map_length, getD_append_length]

theorem down_pass_lengths (B : Nat) :
    ∀ (rest : List (List Nat)) (X : List Nat),
      (down_pass B X rest).map List.length = X.length :: rest.map List.length := by
  intro rest
  induction rest with
  | nil => intro X; simp [down_pass, local_scan_output_length]
  | cons Y rest ih =>
    intro X
    simp [down_pass, local_scan_output_length, ih, local_scan_next_length]

theorem up_pass_lengths (B : Nat) :
    ∀ (Ps : List (List Nat)), (up_pass B Ps).map List.length = Ps.map List.length := by
  intro Ps
  induction Ps with
  | nil => rfl
  | cons X rest ih =>
    simp only [up_pass]
    cases h : up_pass B rest with
    | nil =>
      rw [h] at ih
      simp only [List.map_cons, List.map_nil]
      rw [← ih]
      rfl
    | cons R tail =>
      rw [h] at ih
      simp only [List.map_cons, fixup_scan_output_length]
      rw [← ih]
      rfl

/-- The in-place `local_scan` dispatches of the schedule, from the Level at
index `pre.length` on, perform the downward pass on the Levels from there. -/
theorem down_equiv (B L : Nat) (ls : List Nat) :
    ∀ (rest : List (List Nat)) (X : List Nat) (pre : List (List Nat)) (m : Memory),
      m.phases = pre ++ X :: rest → L = pre.length + 1 + rest.length →
      (pre ++ X :: rest).map List.length = ls →
      ((List.range' pre.length (rest.length + 1)).map (fun i =>
          Dispatch.local_scan (.phase i) (.phase i)
            (if i + 1 < L then some (.phase (i + 1)) else none)
            (ls.getD i 0) (ls.getD i 0) B)).foldl (fun m d => d.run m) m =
        { m with phases := pre ++ down_pass B X rest } := by
  intro rest
  induction rest with
  | nil =>
    intro X pre m hm hL hl
    have h1 := lens_at_length hl
    simp only [List.length_nil, Nat.zero_add, List.range', List.map_cons, List.map_nil,
      List.foldl_cons, List.foldl_nil]
    rw [if_neg (by simp at hL; omega), run_down_last m pre X [] _ _ B hm, h1]
    rfl
  | cons Y rest ih =>
    intro X pre m hm hL hl
    have h1 := lens_at_length hl
    rw [List.length_cons, List.range'_succ, List.map_cons, List.foldl_cons,
      if_pos (by simp at hL; omega), run_down_next m pre X Y rest _ _ B hm, h1]
    have hm2 : ({ m with phases := pre ++ local_scan_output X X X.length X.length B ::
          local_scan_next X Y X.length X.length B :: rest } : Memory).phases
        = (pre ++ [local_scan_output X X X.length X.length B]) ++
            local_scan_next X Y X.length X.length B :: rest := by
      simp
    have hl2 : ((pre ++ [local_scan_output X X X.length X.length B]) ++
            local_scan_next X Y X.length X.length B :: rest).map List.length = ls := by
      rw [← hl]
      simp [local_scan_output_length, local_scan_next_length]
    have := ih (local_scan_next X Y X.length X.length B)
      (pre ++ [local_scan_output X X X.length X.length B]) _ hm2
      (by simp at hL ⊢; omega) hl2
    simp only [List.length_append, List.length_singleton] at this
    rw [this]
    simp [down_pass]

theorem up_pass_cons (B : Nat) (X : List Nat) (rest : List (List Nat)) :
    ∃ R tail, up_pass B (X :: rest) = R :: tail := by
  simp only [up_pass]
  cases up_pass B rest with
  | nil => exact ⟨_, _, rfl⟩
  | cons R tail => exact ⟨_, _, rfl⟩

theorem up_pass_step (B : Nat) (X : List Nat) (rest : List (List Nat)) (R : List Nat)
    (tail : List (List Nat)) (h : up_pass B rest = R :: tail) :
    up_pass B (X :: rest) = fixup_scan_output X R X.length X.length B :: R :: tail := by
  rw [up_pass, h]

/-- The `fixup_scan` dispatches of the schedule down to the Level at index
`pre.length` perform the upward pass on the Levels from there. -/
theorem up_equiv (B : Nat) (ls : List Nat) :
    ∀ (rest : List (List Nat)) (X : List Nat) (pre : List (List Nat)) (m : Memory),
      m.phases = pre ++ X :: rest →
      (pre ++ X :: rest).map List.length = ls →
      ((List.range' pre.length rest.length).reverse.map (fun i =>
          Dispatch.fixup_scan (.phase i) (.phase (i + 1)) (ls.getD i 0) (ls.getD i 0) B)).foldl
          (fun m d => d.run m) m =
        { m with phases := pre ++ up_pass B (X :: rest) } := by
  intro rest
  induction rest with
  | nil =>
    intro X pre m hm hl
    simp only [List.length_nil, List.range', List.reverse_nil, List.map_nil, List.foldl_nil,
      up_pass]
    rw [← hm]
  | cons Y rest ih =>
    intro X pre m hm hl
    have h1 := lens_at_length hl
    rw [List.length_cons, List.range'_succ, List.reverse_cons, List.map_append,
      List.foldl_append]
    have hm2 : m.phases = (pre ++ [X]) ++ Y :: rest := by simp [hm]
    have hl2 : ((pre ++ [X]) ++ Y :: rest).map List.length = ls := by
      rw [← hl]; simp
    have := ih Y (pre ++ [X]) m hm2 hl2
    simp only [List.length_append, List.length_singleton] at this
    rw [this]
    obtain ⟨R, tail, hR⟩ := up_pass_cons B Y rest
    simp only [List.map_cons, List.map_nil, List.foldl_cons, List.foldl_nil]
    rw [run_up _ pre X R tail _ _ B (by simp [hR]), h1, up_pass_step B X (Y :: rest) R tail hR]

/-! ## Correctness of the two passes -/

theorem cell_length (X : List Nat) (k : Nat) : cell X X.length k = X.getD k 0 := by
  unfold cell
  split
  · rfl
  · rename_i h
    rw [List.getD_eq_getElem?_getD, List.getElem?_eq_none (by omega)]
    rfl

/-- After `local_scan` over all of `X`, every in-range element holds the
prefix sum inside its block. -/
theorem lso_block {B : Nat} (hB : 1 ≤ B) (X out : List Nat) (G i : Nat) (hi : i < X.length)
    (hG : i < G) (ho : i < out.length) :
    (local_scan_output X out X.length G B).getD i 0 % U32 =
      sum_upto (fun k => X.getD (i / B * B + k) 0) (i % B + 1) % U32 := by
  rw [local_scan_output_getD _ _ _ _ _ _ ho, if_pos ⟨hG, hi⟩,
    local_scan_temp_cells _ _ _ _ _ (Nat.mod_lt _ hB)]
  congr 1
  apply sum_upto_congr
  intro k _
  rw [cell_length]

/-- After `local_scan` over all of `X`, slot `c` of the side output holds the
total of block `c`. -/
theorem lsn_total {B : Nat} (hB : 1 ≤ B) (X Y : List Nat) (G c : Nat) (hc : c < Y.length)
    (hG : c < G / B) :
    (local_scan_next X Y X.length G B).getD c 0 % U32 =
      sum_upto (fun j => X.getD (B * c + j) 0) B % U32 := by
  rw [local_scan_next_getD _ _ _ _ _ _ hc, if_pos hG,
    local_scan_temp_cells _ _ _ _ _ (by omega : B - 1 < B)]
  have : B - 1 + 1 = B := by omega
  rw [this]
  congr 1
  apply sum_upto_congr
  intro k _
  rw [cell_length, Nat.mul_comm]

/-- A block-local prefix sum plus the total of all earlier blocks is the
prefix sum. -/
theorem carry_combine (f : Nat → Nat) (B i a t : Nat)
    (ha : a % U32 = sum_upto (fun k => f (i / B * B + k)) (i % B + 1) % U32)
    (ht : t % U32 = sum_upto (fun c => sum_upto (fun j => f (B * c + j)) B) (i / B) % U32) :
    (a + t) % U32 = sum_upto f (i + 1) % U32 := by
  have h1 : i + 1 = B * (i / B) + (i % B + 1) := by
    have := Nat.div_add_mod i B
    omega
  rw [h1, sum_upto_add, sum_upto_blocks, Nat.add_mod, ha, ht, ← Nat.add_mod, Nat.add_comm]
  congr 2
  apply sum_upto_congr
  intro k _
  rw [Nat.mul_comm]

/-- The fix-up of a block-wise scanned buffer with the scanned block totals
gives the scanned buffer. -/
theorem fix_correct {B : Nat} (hB : 1 ≤ B) (X S R : List Nat) (size G : Nat)
    (hS : ∀ i, i < X.length →
      S.getD i 0 % U32 = sum_upto (fun k => X.getD (i / B * B + k) 0) (i % B + 1) % U32)
    (hR : ∀ i, i < X.length → B ≤ i →
      R.getD (i / B - 1) 0 % U32 =
        sum_upto (fun c => sum_upto (fun j => X.getD (B * c + j) 0) B) (i / B) % U32)
    (hlen : X.length ≤ S.length) (hsize : X.length ≤ size) (hG : X.length ≤ B + G) :
    scanned X (fixup_scan_output S R size G B) := by
  intro i hi
  rw [fixup_scan_output_getD _ _ _ _ _ _ (by omega)]
  by_cases hBi : B ≤ i
  · rw [if_pos ⟨hBi, by omega, by omega⟩]
    have h1 : i / B = (i - B) / B + 1 := by
      conv_lhs => rw [show i = (i - B) + B by omega]
      exact Nat.add_div_right (i - B) (by omega : 0 < B)
    have e : (i - B) / B = i / B - 1 := by rw [h1, Nat.add_sub_cancel]
    rw [e, Nat.mod_mod]
    exact carry_combine (fun k => X.getD k 0) B i _ _ (hS i hi) (hR i hi hBi)
  · rw [if_neg (fun h => hBi h.1)]
    have h0 : i / B = 0 := Nat.div_eq_of_lt (by omega)
    have h1 : i % B = i := Nat.mod_eq_of_lt (by omega)
    have := hS i hi
    rw [h0, h1] at this
    rw [this]
    congr 1
    apply sum_upto_congr
    intro k _
    rw [Nat.zero_mul, Nat.zero_add]

/-- The scanned block totals of `X` are the carries the fix-up needs. -/
theorem carries_scanned {B : Nat} (hB : 1 ≤ B) (X Y R : List Nat) (G : Nat)
    (hs : scanned (local_scan_next X Y X.length G B) R)
    (hslot : (X.length - 1) / B ≤ Y.length) (hG : X.length ≤ G) :
    ∀ i, i < X.length → B ≤ i →
      R.getD (i / B - 1) 0 % U32 =
        sum_upto (fun c => sum_upto (fun j => X.getD (B * c + j) 0) B) (i / B) % U32 := by
  intro i hi hBi
  have hq1 : 1 ≤ i / B := (Nat.one_le_div_iff (by omega)).mpr hBi
  have hq2 : i / B ≤ (X.length - 1) / B := Nat.div_le_div_right (by omega)
  have hq3 : (X.length - 1) / B ≤ G / B := Nat.div_le_div_right (by omega)
  have := hs (i / B - 1) (by rw [local_scan_next_length]; omega)
  rw [this]
  have e : i / B - 1 + 1 = i / B := by omega
  rw [e]
  apply sum_upto_mod_congr
  intro k hk
  exact lsn_total hB X Y G k (by omega) (by omega)

theorem down_pass_nil (B : Nat) (X : List Nat) :
    down_pass B X [] = [local_scan_output X X X.length X.length B] := rfl

theorem down_pass_cons (B : Nat) (X Y : List Nat) (rest : List (List Nat)) :
    down_pass B X (Y :: rest) =
      local_scan_output X X X.length X.length B ::
        down_pass B (local_scan_next X Y X.length X.length B) rest := rfl

/-- The downward pass followed by the upward pass leaves the first Level
fully scanned, whatever the Levels below it held before. -/
theorem levels_correct {B : Nat} (hB : 1 ≤ B) :
    ∀ (rest : List (List Nat)) (X : List Nat), shape B X.length (rest.map List.length) →
      ∃ R tail, up_pass B (down_pass B X rest) = R :: tail ∧ scanned X R := by
  intro rest
  induction rest with
  | nil =>
    intro X hsh
    have hX : X.length ≤ B := hsh
    refine ⟨local_scan_output X X X.length X.length B, [], ?_, ?_⟩
    · rw [down_pass_nil]
      rfl
    · intro i hi
      have := lso_block hB X X X.length i hi hi hi
      rw [Nat.div_eq_of_lt (by omega), Nat.mod_eq_of_lt (by omega : i < B)] at this
      rw [this]
      congr 1
      apply sum_upto_congr
      intro k _
      rw [Nat.zero_mul, Nat.zero_add]
  | cons Y rest ih =>
    intro X hsh
    have hsh1 : (X.length - 1) / B ≤ Y.length := hsh.1
    have hsh2 : shape B Y.length (rest.map List.length) := hsh.2
    obtain ⟨R, tail, hR, hs⟩ := ih (local_scan_next X Y X.length X.length B)
      (by rw [local_scan_next_length]; exact hsh2)
    refine ⟨fixup_scan_output (local_scan_output X X X.length X.length B) R
        (local_scan_output X X X.length X.length B).length
        (local_scan_output X X X.length X.length B).length B, R :: tail, ?_, ?_⟩
    · rw [down_pass_cons]
      exact up_pass_step B _ _ R tail hR
    · rw [local_scan_output_length]
      apply fix_correct hB X _ R X.length X.length
      · intro i hi
        exact lso_block hB X X X.length i hi hi hi
      · exact carries_scanned hB X Y R X.length hs hsh1 (Nat.le_refl _)
      · rw [local_scan_output_length]
      · exact Nat.le_refl _
      · omega

/-! ## The whole schedule on device memory -/

theorem schedule_nil {s1 : Scan} (n m : Nat) (h : s1.m_phases = []) :
    schedule s1 n m =
      [.local_scan .input .output none n s1.m_aligned_size s1.m_block_size] := by
  simp [schedule, h]

theorem schedule_cons {s1 : Scan} (n m : Nat) {P0 : List Nat} {Prest : List (List Nat)}
    (h : s1.m_phases = P0 :: Prest) :
    schedule s1 n m =
      Dispatch.local_scan .input .output (some (.phase 0)) n s1.m_aligned_size
          s1.m_block_size ::
        ((List.range' 0 (Prest.length + 1)).map (fun i =>
          Dispatch.local_scan (.phase i) (.phase i)
            (if i + 1 < Prest.length + 1 then some (.phase (i + 1)) else none)
            ((s1.m_phases.map List.length).getD i 0) ((s1.m_phases.map List.length).getD i 0)
            s1.m_block_size) ++
        ((List.range' 0 Prest.length).reverse.map (fun i =>
          Dispatch.fixup_scan (.phase i) (.phase (i + 1))
            ((s1.m_phases.map List.length).getD i 0) ((s1.m_phases.map List.length).getD i 0)
            s1.m_block_size) ++
        [Dispatch.fixup_scan .output (.phase 0) m (s1.m_aligned_size - s1.m_block_size)
            s1.m_block_size])) := by
  have hL : s1.m_phases.length = Prest.length + 1 := by rw [h]; rfl
  simp only [schedule, hL, List.range_eq_range', getD_map_length]
  simp

/-- The memory after the whole schedule when the coordinator has no Level. -/
theorem run_schedule_nil {s1 : Scan} (input output : List Nat) (m : Nat)
    (h : s1.m_phases = []) :
    (schedule s1 input.length m).foldl (fun m d => d.run m)
        { input := input, output := output, phases := s1.m_phases } =
      { input := input
        output := local_scan_output input output input.length s1.m_aligned_size
                    s1.m_block_size
        phases := s1.m_phases } := by
  rw [schedule_nil _ _ h]
  rfl

/-- The memory after the whole schedule when the coordinator has Levels. -/
theorem run_schedule_cons {s1 : Scan} (input output : List Nat) (m : Nat) {P0 : List Nat}
    {Prest : List (List Nat)} (h : s1.m_phases = P0 :: Prest) :
    (schedule s1 input.length m).foldl (fun m d => d.run m)
        { input := input, output := output, phases := s1.m_phases } =
      { input := input
        output := fixup_scan_output
          (local_scan_output input output input.length s1.m_aligned_size s1.m_block_size)
          ((up_pass s1.m_block_size (down_pass s1.m_block_size
              (local_scan_next input P0 input.length s1.m_aligned_size s1.m_block_size)
              Prest)).getD 0 [])
          m (s1.m_aligned_size - s1.m_block_size) s1.m_block_size
        phases := up_pass s1.m_block_size (down_pass s1.m_block_size
          (local_scan_next input P0 input.length s1.m_aligned_size s1.m_block_size) Prest) } := by
  rw [schedule_cons _ _ h, List.foldl_cons, List.foldl_append, List.foldl_append]
  -- the first dispatch
  have h0 : Dispatch.run { input := input, output := output, phases := s1.m_phases }
      (.local_scan .input .output (some (.phase 0)) input.length s1.m_aligned_size
        s1.m_block_size) =
      { input := input
        output := local_scan_output input output input.length s1.m_aligned_size
                    s1.m_block_size
        phases := local_scan_next input P0 input.length s1.m_aligned_size s1.m_block_size ::
                    Prest } := by
    simp [Dispatch.run, Memory.read, Memory.write, h]
  rw [h0]
  -- the downward pass
  have hl1 : ([] ++ local_scan_next input P0 input.length s1.m_aligned_size s1.m_block_size ::
      Prest).map List.length = s1.m_phases.map List.length := by
    rw [h]; simp [local_scan_next_length]
  have h1 := down_equiv s1.m_block_size (Prest.length + 1) (s1.m_phases.map List.length) Prest
    (local_scan_next input P0 input.length s1.m_aligned_size s1.m_block_size) []
    { input := input
      output := local_scan_output input output input.length s1.m_aligned_size s1.m_block_size
      phases := local_scan_next input P0 input.length s1.m_aligned_size s1.m_block_size ::
                  Prest }
    rfl (by simp; omega) hl1
  simp only [List.length_nil, List.nil_append] at h1
  rw [h1]
  -- the upward pass
  obtain ⟨S, rest2, hS⟩ : ∃ S rest2, down_pass s1.m_block_size
      (local_scan_next input P0 input.length s1.m_aligned_size s1.m_block_size) Prest
        = S :: rest2 := by
    cases Prest with
    | nil => exact ⟨_, _, rfl⟩
    | cons Y r => exact ⟨_, _, rfl⟩
  have hlen2 : rest2.length = Prest.length := by
    have := down_pass_lengths s1.m_block_size Prest
      (local_scan_next input P0 input.length s1.m_aligned_size s1.m_block_size)
    rw [hS] at this
    have := congrArg List.length this
    simpa using this
  have hl2 : ([] ++ S :: rest2).map List.length = s1.m_phases.map List.length := by
    rw [List.nil_append, ← hS, down_pass_lengths, h]
    simp [local_scan_next_length]
  have h2 := up_equiv s1.m_block_size (s1.m_phases.map List.length) rest2 S []
    { input := input
      output := local_scan_output input output input.length s1.m_aligned_size s1.m_block_size
      phases := S :: rest2 } rfl hl2
  simp only [List.length_nil, List.nil_append, hlen2] at h2
  rw [hS, h2, ← hS]
  rfl

/-- The slot condition between a buffer of `align(r, B)` elements and one of
`align(r / B, B)` elements. -/
theorem align_slot {B : Nat} (hB : 1 ≤ B) (r : Nat) :
    (align_to_block_size r B - 1) / B ≤ align_to_block_size (r / B) B := by
  obtain ⟨a, ha⟩ := align_dvd r hB
  have h2 := align_lt_add r hB
  rw [ha] at h2 ⊢
  have h3 : (B * a - 1) / B ≤ r / B := by
    rcases Nat.eq_zero_or_pos a with h0 | hpos
    · subst h0; simp
    · rw [Nat.le_div_iff_mul_le (by omega)]
      have h4 : (B * a - 1) / B * B ≤ B * a - 1 := Nat.div_mul_le_self _ _
      have h5 : (B * a - 1) / B < a := by
        rw [Nat.div_lt_iff_lt_mul (by omega)]
        have : 0 < a * B := Nat.mul_pos hpos (by omega)
        rw [Nat.mul_comm]
        omega
      have h6 : (B * a - 1) / B * B ≤ (a - 1) * B := Nat.mul_le_mul_right _ (by omega)
      have h7 : (a - 1) * B + B = B * a := by
        obtain ⟨a', rfl⟩ : ∃ a', a = a' + 1 := ⟨a - 1, by omega⟩
        rw [Nat.add_sub_cancel]
        ring
      omega
  exact Nat.le_trans h3 (le_align _ _)

/-- The Level lengths the loop builds have the shape the passes need. -/
theorem level_shape {B n k : Nat} (hB : 1 ≤ B) (hk : exits_at B n k) :
    ∀ d j, j + d + 1 = k →
      shape B (align_to_block_size (running_size B n (j + 1)) B)
        ((List.range' (j + 1) d).map
          (fun i => align_to_block_size (running_size B n (i + 1)) B)) := by
  intro d
  induction d with
  | zero =>
    intro j hj
    have hpos := running_size_succ_pos (n := n) (i := j) hB (hk.2 j (by omega))
    have hle : running_size B n (j + 1) ≤ B := by
      have := hk.1
      rwa [← hj] at this
    show align_to_block_size (running_size B n (j + 1)) B ≤ B
    rw [align_eq_block hpos hle]
  | succ d ih =>
    intro j hj
    rw [List.range'_succ, List.map_cons]
    refine ⟨?_, ih (j + 1) (by omega)⟩
    rw [running_size_succ B n (j + 1)]
    exact align_slot hB _

theorem level_lengths_succ (B n k : Nat) :
    level_lengths B n (k + 1) =
      align_to_block_size (running_size B n 1) B ::
        (List.range' 1 k).map (fun i => align_to_block_size (running_size B n (i + 1)) B) := by
  unfold level_lengths
  rw [List.range_eq_range', List.range'_succ, List.map_cons]

theorem fx_lso_lt {input : List Nat} (hu : is_u32 input) (output R : List Nat)
    (size G size2 G2 B i : Nat) (hi : i < output.length) (hs : i < size) (hG : i < G) :
    (fixup_scan_output (local_scan_output input output size G B) R size2 G2 B).getD i 0
      < U32 := by
  rw [fixup_scan_output_getD _ _ _ _ _ _ (by rw [local_scan_output_length]; exact hi)]
  split
  · exact Nat.mod_lt _ (by decide)
  · rw [local_scan_output_getD _ _ _ _ _ _ hi, if_pos ⟨hG, hs⟩]
    exact local_scan_temp_bound hu _ _ _ _

/-- A lane at or beyond `size` leaves `output` alone. -/
theorem local_scan_output_frame (input output : List Nat) (size G B i : Nat) (h : size ≤ i) :
    (local_scan_output input output size G B).getD i 0 = output.getD i 0 := by
  rcases Nat.lt_or_ge i output.length with hi | hi
  · rw [local_scan_output_getD _ _ _ _ _ _ hi, if_neg (by omega)]
  · rw [List.getD_eq_getElem?_getD, List.getD_eq_getElem?_getD,
      List.getElem?_eq_none (by rw [local_scan_output_length]; exact hi),
      List.getElem?_eq_none hi]

/-- An element no lane of `fixup_scan` handles keeps its value. -/
theorem fixup_scan_output_frame (output next : List Nat) (size G B i : Nat)
    (h : ¬ (B ≤ i ∧ i - B < G ∧ i < size)) :
    (fixup_scan_output output next size G B).getD i 0 = output.getD i 0 := by
  rcases Nat.lt_or_ge i output.length with hi | hi
  · rw [fixup_scan_output_getD _ _ _ _ _ _ hi, if_neg h]
  · rw [List.getD_eq_getElem?_getD, List.getD_eq_getElem?_getD,
      List.getElem?_eq_none (by rw [fixup_scan_output_length]; exact hi),
      List.getElem?_eq_none hi]

theorem prefix_sum_eq (input : List Nat) (i : Nat) :
    prefix_sum input i = sum_upto (fun k => input.getD k 0) (i + 1) % U32 := by
  unfold prefix_sum
  rw [sum_take_eq]

/-- The memory after the whole schedule, for a coordinator whose cache is the
one built for the length of `input`: `output` holds the inclusive prefix sums
of `input` on its first `input.length` elements, and no buffer changed its
length. The initial contents of `output` and of the Levels are arbitrary. -/
theorem run_schedule_correct {B k : Nat} (s1 : Scan) (input output : List Nat) (hB : 1 ≤ B)
    (hsB : s1.m_block_size = B)
    (hA : s1.m_aligned_size = align_to_block_size input.length B)
    (hk : exits_at B input.length k) (hl : s1.phase_lengths = level_lengths B input.length k)
    (hm : input.length ≤ output.length) (hu : is_u32 input) :
    ∃ out phases,
      (schedule s1 input.length output.length).foldl (fun m d => d.run m)
          { input := input, output := output, phases := s1.m_phases } =
        { input := input, output := out, phases := phases } ∧
      out.length = output.length ∧
      (∀ i, i < input.length → out.getD i 0 = prefix_sum input i) ∧
      phases.map List.length = s1.m_phases.map List.length ∧
      (∀ i, align_to_block_size input.length B ≤ i → out.getD i 0 = output.getD i 0) := by
  have hnA : input.length ≤ align_to_block_size input.length B := le_align _ _
  cases hP : s1.m_phases with
  | nil =>
    have hk0 : k = 0 := by
      have := congrArg List.length hl
      rw [level_lengths_length] at this
      rw [← this]
      simp [Scan.phase_lengths, hP]
    have hnB : input.length ≤ B := by
      have := hk.1
      rwa [hk0, running_size_zero] at this
    refine ⟨_, _, by rw [← hP]; exact run_schedule_nil input output output.length hP, ?_, ?_,
      by rw [hP], ?_⟩
    rotate_left 2
    · intro i hi
      exact local_scan_output_frame _ _ _ _ _ _ (by omega)
    · rw [local_scan_output_length]
    · intro i hi
      rw [hsB, hA, local_scan_output_value hu output _ _ B i hB (by omega) (by omega) hi,
        Nat.div_eq_of_lt (by omega), Nat.mod_eq_of_lt (by omega : i < B)]
      simp [prefix_sum]
  | cons P0 Prest =>
    have hk1 : k = Prest.length + 1 := by
      have := congrArg List.length hl
      rw [level_lengths_length] at this
      rw [← this]
      simp [Scan.phase_lengths, hP]
    subst hk1
    rw [level_lengths_succ] at hl
    have hl0 : P0.length = align_to_block_size (running_size B input.length 1) B := by
      have := congrArg (fun l => l.headD 0) hl
      simpa [Scan.phase_lengths, hP] using this
    have hlr : Prest.map List.length = (List.range' 1 Prest.length).map
        (fun i => align_to_block_size (running_size B input.length (i + 1)) B) := by
      have := congrArg List.tail hl
      simpa [Scan.phase_lengths, hP] using this
    have hsh : shape B P0.length (Prest.map List.length) := by
      rw [hl0, hlr]
      exact level_shape hB hk Prest.length 0 (by omega)
    obtain ⟨R, tail, hR, hs⟩ := levels_correct hB Prest
      (local_scan_next input P0 input.length (align_to_block_size input.length B) B)
      (by rw [local_scan_next_length]; exact hsh)
    have hrun := run_schedule_cons input output output.length hP
    rw [hsB, hA, hR] at hrun
    refine ⟨_, _, by rw [← hP]; exact hrun, ?_, ?_, ?_, ?_⟩
    rotate_left 3
    · intro i hi
      rw [fixup_scan_output_frame _ _ _ _ _ _ (by omega),
        local_scan_output_frame _ _ _ _ _ _ (by omega)]
    · rw [fixup_scan_output_length, local_scan_output_length]
    · have hslot : (input.length - 1) / B ≤ P0.length := by
        rw [hl0, running_size_succ, running_size_zero]
        exact Nat.le_trans (Nat.div_le_div_right (by omega)) (le_align _ _)
      have hsc : scanned input
          (fixup_scan_output
            (local_scan_output input output input.length
              (align_to_block_size input.length B) B)
            R output.length (align_to_block_size input.length B - B) B) := by
        apply fix_correct hB input _ R
        · intro i hi
          exact lso_block hB input output _ i hi (by omega) (by omega)
        · exact carries_scanned hB input P0 R _ hs hslot hnA
        · rw [local_scan_output_length]; exact hm
        · exact hm
        · omega
      intro i hi
      have h1 := hsc i hi
      have h2 := fx_lso_lt hu output R input.length (align_to_block_size input.length B)
        output.length (align_to_block_size input.length B - B) B i (by omega) hi (by omega)
      rw [prefix_sum_eq, ← h1]
      exact (Nat.mod_eq_of_lt h2).symm
    · rw [← hR, up_pass_lengths, down_pass_lengths, local_scan_next_length]
      rfl

/-! ## Calls of `inclusive_scan` and the coordinator state -/

theorem set_map_length (phases : List (List Nat)) (j : Nat) (v : List Nat)
    (h : v.length = (phases.getD j []).length) :
    (phases.set j v).map List.length = phases.map List.length := by
  induction phases generalizing j with
  | nil => rfl
  | cons a phases ih =>
    cases j with
    | zero =>
      simp only [List.set_cons_zero, List.map_cons]
      rw [h]
      rfl
    | succ j =>
      simp only [List.set_cons_succ, List.map_cons]
      rw [ih j (by simpa using h)]

theorem write_lengths (m : Memory) (b : Buffer) (v : List Nat)
    (h : v.length = (m.read b).length) :
    (m.write b v).phases.map List.length = m.phases.map List.length ∧
    (m.write b v).output.length = m.output.length := by
  cases b with
  | input => exact ⟨rfl, rfl⟩
  | output => exact ⟨rfl, h⟩
  | phase j => exact ⟨set_map_length _ _ _ h, rfl⟩

/-- No dispatch changes the length of `output` or of a Level. -/
theorem run_lengths (m : Memory) (d : Dispatch) :
    (d.run m).phases.map List.length = m.phases.map List.length ∧
    (d.run m).output.length = m.output.length := by
  cases d with
  | local_scan src dst nx size G B =>
    have h1 := write_lengths m dst (local_scan_output (m.read src) (m.read dst) size G B)
      (local_scan_output_length _ _ _ _ _)
    cases nx with
    | none => exact h1
    | some nx =>
      have h2 := write_lengths
        (m.write dst (local_scan_output (m.read src) (m.read dst) size G B)) nx
        (local_scan_next (m.read src)
          ((m.write dst (local_scan_output (m.read src) (m.read dst) size G B)).read nx)
          size G B)
        (local_scan_next_length _ _ _ _ _)
      exact ⟨h2.1.trans h1.1, h2.2.trans h1.2⟩
  | fixup_scan dst nx size G B =>
    exact write_lengths m dst _ (fixup_scan_output_length _ _ _ _ _)

theorem foldl_run_lengths (ds : List Dispatch) (m : Memory) :
    (ds.foldl (fun m d => d.run m) m).phases.map List.length = m.phases.map List.length ∧
    (ds.foldl (fun m d => d.run m) m).output.length = m.output.length := by
  induction ds generalizing m with
  | nil => exact ⟨rfl, rfl⟩
  | cons d ds ih =>
    rw [List.foldl_cons]
    have h1 := ih (d.run m)
    have h2 := run_lengths m d
    exact ⟨h1.1.trans h2.1, h1.2.trans h2.2⟩

/-- A call of `inclusive_scan` that passes its assertion and whose cache
update returns, followed by the completion of its dispatches. -/
theorem scan_eq {fuel : Nat} {s s1 : Scan} (input output : List Nat)
    (hm : input.length ≤ output.length)
    (he : ensure_buffers_ready fuel s input.length = some s1) :
    scan fuel s input output =
      some ({ s1 with m_phases :=
                ((schedule s1 input.length output.length).foldl
                  (fun (m : Memory) (d : Dispatch) => d.run m)
                  { input := input, output := output, phases := s1.m_phases }).phases },
            ((schedule s1 input.length output.length).foldl
              (fun (m : Memory) (d : Dispatch) => d.run m)
              { input := input, output := output, phases := s1.m_phases }).output) := by
  unfold scan
  rw [inclusive_scan_returns _ _ hm he]
  simp only [List.nil_append, run_all_chain]

/-- A call of `scan` that returns has passed the assertion and updated the
cache. -/
theorem scan_some_inv {fuel : Nat} {s s2 : Scan} {input output out : List Nat}
    (h : scan fuel s input output = some (s2, out)) :
    input.length ≤ output.length ∧
    ∃ s1, ensure_buffers_ready fuel s input.length = some s1 := by
  unfold scan at h
  cases hi : inclusive_scan fuel s input.length output.length
      { enqueued := [], next_event := 0 } [] with
  | assert_failed a b => rw [hi] at h; cases h
  | diverged => rw [hi] at h; cases h
  | returned s1 q ev =>
    obtain ⟨h1, h2⟩ := inclusive_scan_returned_inv hi
    exact ⟨h1, s1, h2⟩

theorem valid_construct (wl wf : Nat) : (Scan.construct wl wf).valid := by
  refine ⟨0, ⟨?_, ?_⟩, rfl, ?_⟩
  · simp [Scan.construct, running_size]
  · intro i hi; omega
  · simp [Scan.construct, align_zero]

/-- A returning cache update leaves a valid cache for the new size. -/
theorem ensure_valid {fuel : Nat} {s s1 : Scan} {n : Nat} (hv : s.valid)
    (he : ensure_buffers_ready fuel s n = some s1) :
    s1.valid ∧ s1.m_last_input_size = n ∧ s1.m_block_size = s.m_block_size := by
  by_cases hne : s.m_last_input_size = n
  · have : s1 = s := by
      simp [ensure_buffers_ready, hne] at he
      exact he.symm
    subst this
    exact ⟨hv, hne, rfl⟩
  · obtain ⟨k, hk, hs1⟩ := ensure_rebuild hne he
    subst hs1
    exact ⟨⟨k, hk, phase_lengths_map_alloc _ _ _ _, rfl⟩, rfl, rfl⟩

/-- With a block size of at least 2 and enough fuel, the cache update
returns. -/
theorem ensure_returns {s : Scan} (n fuel : Nat) (hB : 2 ≤ s.m_block_size) (hf : n ≤ fuel) :
    ∃ s1, ensure_buffers_ready fuel s n = some s1 := by
  by_cases hne : s.m_last_input_size = n
  · exact ⟨s, by simp [ensure_buffers_ready, hne]⟩
  · obtain ⟨k, s1, _, he, _⟩ := ensure_rebuild_spec s n fuel hB hne hf
    exact ⟨s1, he⟩

/-- A returning call of `scan` on a valid coordinator leaves a valid
coordinator for the length of its input. -/
theorem scan_valid {fuel : Nat} {s s2 : Scan} {input output out : List Nat} (hv : s.valid)
    (h : scan fuel s input output = some (s2, out)) :
    s2.valid ∧ s2.m_last_input_size = input.length ∧ s2.m_block_size = s.m_block_size ∧
      out.length = output.length := by
  obtain ⟨hm, s1, he⟩ := scan_some_inv h
  rw [scan_eq input output hm he] at h
  obtain ⟨hv1, hl1, hB1⟩ := ensure_valid hv he
  have hlen := foldl_run_lengths (schedule s1 input.length output.length)
    { input := input, output := output, phases := s1.m_phases }
  simp only [Option.some.injEq, Prod.mk.injEq] at h
  obtain ⟨h1, h2⟩ := h
  subst h1 h2
  obtain ⟨k, hk, hpl, hal⟩ := hv1
  refine ⟨⟨k, hk, ?_, hal⟩, hl1, hB1, hlen.2⟩
  exact hlen.1.trans hpl

/-- A call of `inclusive_scan` on a valid coordinator with block size at least
2 returns, and `scan`, which drops a store outside a buffer, leaves the
inclusive prefix sums of `input` in `output`; the coordinator stays valid. -/
theorem scan_correct (s : Scan) (input output : List Nat) (fuel : Nat) (hv : s.valid)
    (hB : 2 ≤ s.m_block_size) (hu : is_u32 input) (hm : input.length ≤ output.length)
    (hf : input.length ≤ fuel) :
    ∃ s2 out, scan fuel s input output = some (s2, out) ∧
      out.length = output.length ∧
      (∀ i, i < input.length → out.getD i 0 = prefix_sum input i) ∧
      s2.valid ∧ s2.m_last_input_size = input.length ∧ s2.m_block_size = s.m_block_size ∧
      (∀ i, align_to_block_size input.length s.m_block_size ≤ i →
        out.getD i 0 = output.getD i 0) := by
  obtain ⟨s1, he⟩ := ensure_returns input.length fuel hB hf
  obtain ⟨⟨k, hk, hpl, hal⟩, hl1, hB1⟩ := ensure_valid hv he
  rw [hl1] at hk hpl hal
  obtain ⟨out, phases, hrun, h1, h2, h3, h4⟩ :=
    run_schedule_correct s1 input output (by omega : 1 ≤ s1.m_block_size) rfl hal hk hpl hm hu
  have hs := scan_eq input output hm he
  rw [hrun] at hs
  refine ⟨_, out, hs, h1, h2, ?_, hl1, hB1, ?_⟩
  · have := scan_valid hv hs
    exact this.1
  · rw [← hB1]
    exact h4

theorem prefix_sum_ones (n i : Nat) (hi : i < n) :
    prefix_sum (List.replicate n 1) i = (i + 1) % U32 := by
  unfold prefix_sum
  rw [List.take_replicate, List.sum_replicate, Nat.min_eq_left (by omega)]
  simp

theorem sum_upto_le_of_le_one {f : Nat → Nat} (h : ∀ k, f k ≤ 1) (m : Nat) :
    sum_upto f m ≤ m := by
  induction m with
  | zero => exact Nat.le_refl _
  | succ m ih =>
    simp only [sum_upto]
    have := h m
    omega

theorem getD_le_one {input : List Nat} (h01 : ∀ x ∈ input, x = 0 ∨ x = 1) (k : Nat) :
    input.getD k 0 ≤ 1 := by
  rcases Nat.lt_or_ge k input.length with hk | hk
  · rw [List.getD_eq_getElem?_getD, List.getElem?_eq_getElem hk]
    rcases h01 _ (List.getElem_mem hk) with h | h <;> simp [h]
  · rw [List.getD_eq_getElem?_getD, List.getElem?_eq_none hk]
    simp

theorem sum_eq_count_one (input : List Nat) (h01 : ∀ x ∈ input, x = 0 ∨ x = 1) :
    input.sum = input.count 1 := by
  induction input with
  | nil => rfl
  | cons a l ih =>
    have hl := ih (fun x hx => h01 x (List.mem_cons_of_mem a hx))
    rcases h01 a (List.mem_cons_self a l) with h | h
    · subst h
      simp [hl]
    · subst h
      simp [hl]
      omega

/-- The prefix sums of a 0/1 input shorter than `2^32` do not wrap. -/
theorem prefix_sum_01 {input : List Nat} (h01 : ∀ x ∈ input, x = 0 ∨ x = 1)
    (hn : input.length < 4294967296) (i : Nat) (hi : i < input.length) :
    prefix_sum input i = sum_upto (fun k => input.getD k 0) (i + 1) := by
  rw [prefix_sum_eq]
  apply Nat.mod_eq_of_lt
  have := sum_upto_le_of_le_one (getD_le_one h01) (i + 1)
  unfold U32
  omega

/-- Every reachable coordinator is valid and keeps the block size of its
construction. -/
theorem reachable_valid {wl wf : Nat} {s : Scan} (hr : Reachable wl wf s) :
    s.valid ∧ s.m_block_size = min wl wf := by
  induction hr with
  | construct => exact ⟨valid_construct wl wf, rfl⟩
  | ensure _ he ih =>
    obtain ⟨h1, _, h3⟩ := ensure_valid ih.1 he
    exact ⟨h1, h3.trans ih.2⟩
  | scan _ hs ih =>
    obtain ⟨h1, _, h3, _⟩ := scan_valid ih.1 hs
    exact ⟨h1, h3.trans ih.2⟩

/-- A cache update for a size other than the last one depends on the
coordinator only through its block size: it gives what a fresh coordinator
gives. -/
theorem ensure_eq_fresh (wl wf : Nat) (s : Scan) (hB : s.m_block_size = min wl wf)
    (fuel n : Nat) (hne : n ≠ s.m_last_input_size) :
    ensure_buffers_ready fuel s n = ensure_buffers_ready fuel (Scan.construct wl wf) n := by
  by_cases h0 : n = 0
  · subst h0
    have hl : ∀ B, loop_run B fuel (loop_init 0) = some (loop_init 0) := by
      intro B
      cases fuel <;> simp [loop_run, loop_cond, loop_init]
    have h1 : ensure_buffers_ready fuel s 0 = some (Scan.construct wl wf) := by
      unfold ensure_buffers_ready
      rw [if_neg (fun h => hne h.symm)]
      change (match loop_run s.m_block_size fuel (loop_init 0) with
        | none => none
        | some st => some _) = _
      rw [hl]
      simp [loop_init, align_zero, hB, Scan.construct]
    rw [h1]
    simp [ensure_buffers_ready, Scan.construct]
  · unfold ensure_buffers_ready
    rw [if_neg (fun h => hne h.symm), if_neg (by simp [Scan.construct]; omega)]
    have : (Scan.construct wl wf).m_block_size = s.m_block_size := by
      rw [hB]; rfl
    rw [this]

/-- The host part of `inclusive_scan` depends on the coordinator only through
the cache update. -/
theorem scan_congr {fuel : Nat} {s t : Scan} (input output : List Nat)
    (h : ensure_buffers_ready fuel s input.length = ensure_buffers_ready fuel t input.length) :
    scan fuel s input output = scan fuel t input output := by
  unfold scan inclusive_scan
  by_cases hm : ¬ output.length ≥ input.length
  · rw [if_pos hm, if_pos hm]
  · rw [if_neg hm, if_neg hm, h]

/-- C7: the cache depends only on the most recent size: in every state
reachable from a fresh coordinator with block size `B >= 2`, the Level
lengths and `m_aligned_size` are those a fresh coordinator gets from one call
with the last size, `m_aligned_size` being the padded last size; and a call
with a size other than the last one leaves exactly the state, and gives
exactly the result, of the same call on a fresh coordinator. -/
theorem C7_cache_depends_on_last_size (wl wf : Nat) (s : Scan) (hB : 2 ≤ min wl wf)
    (hr : Reachable wl wf s) :
    s.m_block_size = min wl wf ∧
    s.m_aligned_size = align_to_block_size s.m_last_input_size (min wl wf) ∧
    (∀ fuel, s.m_last_input_size ≤ fuel →
      ∃ s0, ensure_buffers_ready fuel (Scan.construct wl wf) s.m_last_input_size = some s0 ∧
        s.phase_lengths = s0.phase_lengths ∧ s.m_aligned_size = s0.m_aligned_size ∧
        s.m_last_input_size = s0.m_last_input_size) ∧
    (∀ fuel n, n ≠ s.m_last_input_size →
      ensure_buffers_ready fuel s n = ensure_buffers_ready fuel (Scan.construct wl wf) n) ∧
    (∀ fuel input output, input.length ≠ s.m_last_input_size →
      scan fuel s input output = scan fuel (Scan.construct wl wf) input output) := by
  obtain ⟨⟨k, hk, hpl, hal⟩, hsB⟩ := reachable_valid hr
  rw [hsB] at hk hpl hal
  refine ⟨hsB, hal, ?_, ?_, ?_⟩
  · intro fuel hf
    have hfB : (Scan.construct wl wf).m_block_size = min wl wf := rfl
    obtain ⟨s0, he⟩ := ensure_returns s.m_last_input_size fuel
      (by rw [hfB]; exact hB) hf
    obtain ⟨⟨k0, hk0, hpl0, hal0⟩, hl0, hB0⟩ := ensure_valid (valid_construct wl wf) he
    rw [hB0, hfB, hl0] at hk0 hpl0 hal0
    have hkk : k0 = k := exits_at_unique hk0 hk
    subst hkk
    exact ⟨s0, he, hpl.trans hpl0.symm, hal.trans hal0.symm, hl0.symm⟩
  · intro fuel n hne
    exact ensure_eq_fresh wl wf s hsB fuel n hne
  · intro fuel input output hne
    exact scan_congr input output (ensure_eq_fresh wl wf s hsB fuel input.length hne)

/-- C7 on a coordinator with block size 2 that has served a call with 11
elements and then one with 5: its cache is the one a fresh coordinator builds
for 5 elements. -/
theorem C7_cache_depends_on_last_size_witness :
    (ensure_buffers_ready 11 (Scan.construct 2 2) 11).bind
        (fun s => ensure_buffers_ready 11 s 5) =
      ensure_buffers_ready 11 (Scan.construct 2 2) 5 ∧
    ∀ fuel n, n ≠ 5 →
      ensure_buffers_ready fuel
          { m_last_input_size := 5, m_aligned_size := 6, m_block_size := 2,
            m_phases := [[0, 0]] } n =
        ensure_buffers_ready fuel (Scan.construct 2 2) n :=
  ⟨by decide,
   (C7_cache_depends_on_last_size 2 2
      { m_last_input_size := 5, m_aligned_size := 6, m_block_size := 2, m_phases := [[0, 0]] }
      (by decide)
      (@Reachable.ensure 2 2
        { m_last_input_size := 11, m_aligned_size := 12, m_block_size := 2,
          m_phases := [[0, 0, 0, 0, 0, 0], [0, 0]] }
        { m_last_input_size := 5, m_aligned_size := 6, m_block_size := 2, m_phases := [[0, 0]] }
        11 5
        (@Reachable.ensure 2 2 (Scan.construct 2 2)
          { m_last_input_size := 11, m_aligned_size := 12, m_block_size := 2,
            m_phases := [[0, 0, 0, 0, 0, 0], [0, 0]] }
          11 11 Reachable.construct (by decide))
        (by decide))).2.2.2.1⟩

/-- Allowing the loop of `local_scan` more rounds than the block size changes
nothing: it has left by its condition. -/
theorem scan_rounds_fuel (B : Nat) :
    ∀ (fuel w : Nat) (t : List Nat) (extra : Nat), B ≤ w * 2 ^ fuel →
      scan_rounds B (fuel + extra) w t = scan_rounds B fuel w t := by
  intro fuel
  induction fuel with
  | zero =>
    intro w t extra h
    have hw : B ≤ w := by simpa using h
    cases extra with
    | zero => rfl
    | succ e =>
      rw [Nat.zero_add]
      simp only [scan_rounds]
      rw [if_neg (by omega)]
  | succ fuel ih =>
    intro w t extra h
    have e : fuel + 1 + extra = fuel + extra + 1 := by omega
    rw [e]
    simp only [scan_rounds]
    split
    · apply ih
      rw [pow_succ] at h
      calc B ≤ w * (2 ^ fuel * 2) := h
        _ = w * 2 * 2 ^ fuel := by ring
    · rfl

theorem local_scan_temp_fuel (input : List Nat) (size B g extra : Nat) :
    scan_rounds B (B + extra) 1 (seed input size B g) = local_scan_temp input size B g :=
  scan_rounds_fuel B B 1 _ extra (by rw [Nat.one_mul]; exact Nat.le_of_lt (Nat.lt_two_pow B))

/-- A buffer of `align(r / B, B)` slots has a slot for every block of a buffer
of `align(r, B)` elements except, at most, the last block. -/
theorem align_slots_but_last {B : Nat} (hB : 1 ≤ B) (r : Nat) :
    align_to_block_size r B / B ≤ align_to_block_size (r / B) B + 1 := by
  have h1 := align_slot hB r
  obtain ⟨a, ha⟩ := align_dvd r hB
  rw [ha] at h1 ⊢
  rw [Nat.mul_div_cancel_left a (by omega : 0 < B)]
  rcases Nat.eq_zero_or_pos a with h0 | hpos
  · omega
  · have h2 : a - 1 ≤ (B * a - 1) / B := by
      rw [Nat.le_div_iff_mul_le (by omega)]
      obtain ⟨a', rfl⟩ : ∃ a', a = a' + 1 := ⟨a - 1, by omega⟩
      rw [Nat.add_sub_cancel]
      have : B * (a' + 1) = a' * B + B := by ring
      omega
    omega

/-- What `inclusive_scan` leaves of `output` beyond the input: every element
from the padded input size on keeps its value. -/
theorem output_unchanged_from_padded_size (s : Scan) (input output : List Nat) (fuel : Nat)
    (hv : s.valid) (hB : 2 ≤ s.m_block_size) (hu : is_u32 input)
    (hm : input.length ≤ output.length) (hf : input.length ≤ fuel) :
    ∃ s2 out, scan fuel s input output = some (s2, out) ∧
      ∀ i, align_to_block_size input.length s.m_block_size ≤ i →
        out.getD i 0 = output.getD i 0 := by
  obtain ⟨s2, out, h1, -, -, -, -, -, h5⟩ := scan_correct s input output fuel hv hB hu hm hf
  exact ⟨s2, out, h1, h5⟩

/-! ## Runs in which no dispatch leaves its buffers -/

theorem run_all_checked_sound :
    ∀ (es : List Enqueued) (m m1 : Memory), run_all_checked m es = some m1 →
      run_all m es = m1 := by
  intro es
  induction es with
  | nil =>
    intro m m1 h
    simp only [run_all_checked, Option.some.injEq] at h
    rw [← h]
    rfl
  | cons e es ih =>
    intro m m1 h
    simp only [run_all_checked] at h
    cases hr : e.dispatch.run_checked m with
    | none => rw [hr] at h; cases h
    | some m2 =>
      rw [hr] at h
      have h2 : m2 = e.dispatch.run m := by
        unfold Dispatch.run_checked at hr
        split at hr
        · exact (Option.some.inj hr).symm
        · cases hr
      subst h2
      exact ih _ _ h

/-- A run on the device that has a result has the result of `scan`. -/
theorem scan_checked_sound {fuel : Nat} {s : Scan} {input output : List Nat}
    {r : Scan × List Nat} (h : scan_checked fuel s input output = some r) :
    scan fuel s input output = some r := by
  unfold scan_checked at h
  unfold scan
  cases hi : inclusive_scan fuel s input.length output.length
      { enqueued := [], next_event := 0 } [] with
  | assert_failed a b => rw [hi] at h; cases h
  | diverged => rw [hi] at h; cases h
  | returned s1 q ev =>
    rw [hi] at h
    simp only at h ⊢
    cases hr : run_all_checked { input := input, output := output, phases := s1.m_phases }
        q.enqueued with
    | none => rw [hr] at h; cases h
    | some m =>
      rw [hr] at h
      rw [run_all_checked_sound _ _ _ hr]
      exact h

/-- A returning call of `scan` on a valid coordinator leaves the inclusive
prefix sums of `input` in `output`. -/
theorem scan_correct_of_returns {fuel : Nat} {s s2 : Scan} {input output out : List Nat}
    (hv : s.valid) (hB : 1 ≤ s.m_block_size) (hu : is_u32 input)
    (h : scan fuel s input output = some (s2, out)) :
    out.length = output.length ∧
    (∀ i, i < input.length → out.getD i 0 = prefix_sum input i) ∧
    s2.valid ∧ s2.m_last_input_size = input.length ∧ s2.m_block_size = s.m_block_size := by
  obtain ⟨hm, s1, he⟩ := scan_some_inv h
  obtain ⟨⟨k, hk, hpl, hal⟩, hl1, hB1⟩ := ensure_valid hv he
  rw [hl1] at hk hpl hal
  obtain ⟨out1, phases, hrun, h1, h2, -, -⟩ :=
    run_schedule_correct s1 input output (by omega : 1 ≤ s1.m_block_size) rfl hal hk hpl hm hu
  have hs := scan_eq input output hm he
  rw [hrun, h] at hs
  simp only [Option.some.injEq, Prod.mk.injEq] at hs
  obtain ⟨-, hout⟩ := hs
  subst hout
  obtain ⟨hv2, hl2, hB2, -⟩ := scan_valid hv h
  exact ⟨h1, h2, hv2, hl2, hB2⟩

/-- Whenever a call of `inclusive_scan` on a valid coordinator runs without an
access outside a buffer, `output[i]` is the sum of `input[0..i]` modulo
`2^32` for every `i` below the input length; an input of ones gives
`output[i] = i + 1`. -/
theorem defined_scan_prefix_sums (s s2 : Scan) (input output out : List Nat) (fuel : Nat)
    (hv : s.valid) (hB : 1 ≤ s.m_block_size) (hu : is_u32 input)
    (h : scan_checked fuel s input output = some (s2, out)) :
    out.length = output.length ∧
    (∀ i, i < input.length → out.getD i 0 = (input.take (i + 1)).sum % 4294967296) ∧
    (∀ n, input = List.replicate n 1 → ∀ i, i < n → out.getD i 0 = (i + 1) % 4294967296) := by
  obtain ⟨h1, h2, -, -, -⟩ := scan_correct_of_returns hv hB hu (scan_checked_sound h)
  refine ⟨h1, h2, ?_⟩
  intro n hn i hi
  subst hn
  rw [h2 i (by simpa using hi)]
  exact prefix_sum_ones n i hi

/-- Whenever two calls of `inclusive_scan` in a row run without an access
outside a buffer, the second one's output is the inclusive prefix sum of the
second input alone, whatever the first call left in the Level buffers. -/
theorem defined_second_call (s s1 s2 : Scan) (input1 output1 out1 input2 output2 out2 : List Nat)
    (fuel : Nat) (hv : s.valid) (hB : 1 ≤ s.m_block_size) (hu2 : is_u32 input2)
    (h1 : scan_checked fuel s input1 output1 = some (s1, out1))
    (h2 : scan_checked fuel s1 input2 output2 = some (s2, out2)) :
    ∀ i, i < input2.length → out2.getD i 0 = prefix_sum input2 i := by
  obtain ⟨hv1, -, hB1, -⟩ := scan_valid hv (scan_checked_sound h1)
  exact (scan_correct_of_returns hv1 (by omega) hu2 (scan_checked_sound h2)).2.1

/-- Whenever a call of `inclusive_scan` on zeros and ones, fewer than `2^32`
of them, runs without an access outside a buffer, the output is
non-decreasing and its last scanned element is the number of ones. -/
theorem defined_counting_scan (s s2 : Scan) (input output out : List Nat) (fuel : Nat)
    (hv : s.valid) (hB : 1 ≤ s.m_block_size) (h01 : ∀ x ∈ input, x = 0 ∨ x = 1)
    (hn1 : 1 ≤ input.length) (hn : input.length < 4294967296)
    (h : scan_checked fuel s input output = some (s2, out)) :
    (∀ i, i + 1 < input.length → out.getD i 0 ≤ out.getD (i + 1) 0) ∧
    out.getD (input.length - 1) 0 = input.count 1 := by
  have hu : is_u32 input := by
    intro x hx
    rcases h01 x hx with h | h <;> subst h <;> decide
  obtain ⟨-, h3, -, -, -⟩ := scan_correct_of_returns hv hB hu (scan_checked_sound h)
  refine ⟨?_, ?_⟩
  · intro i hi
    rw [h3 i (by omega), h3 (i + 1) hi, prefix_sum_01 h01 hn i (by omega),
      prefix_sum_01 h01 hn (i + 1) hi]
    exact sum_upto_mono _ (by omega)
  · rw [h3 (input.length - 1) (by omega), prefix_sum_01 h01 hn _ (by omega)]
    have e : input.length - 1 + 1 = input.length := by omega
    rw [e, ← sum_take_eq, List.take_length]
    exact sum_eq_count_one input h01

/-- An input of at most one block is scanned by a single dispatch that stays
inside its buffers: the run has a result, the inclusive prefix sums. -/
theorem single_block_defined (s : Scan) (input output : List Nat) (fuel : Nat)
    (hv : s.valid) (hB : 2 ≤ s.m_block_size) (hu : is_u32 input)
    (hn : input.length ≤ s.m_block_size) (hm : input.length ≤ output.length)
    (hf : input.length ≤ fuel) :
    ∃ s2 out, scan_checked fuel s input output = some (s2, out) ∧
      ∀ i, i < input.length → out.getD i 0 = prefix_sum input i := by
  obtain ⟨s1, he⟩ := ensure_returns input.length fuel hB hf
  obtain ⟨⟨k, hk, hpl, hal⟩, hl1, hB1⟩ := ensure_valid hv he
  rw [hl1] at hk hpl hal
  have hk0 : k = 0 := by
    rcases Nat.eq_zero_or_pos k with h0 | h0
    · exact h0
    · have := hk.2 0 h0
      rw [running_size_zero] at this
      omega
  subst hk0
  have hP : s1.m_phases = [] := by
    have := congrArg List.length hpl
    rw [level_lengths_length] at this
    simpa [Scan.phase_lengths] using this
  have hin : Dispatch.in_bounds { input := input, output := output, phases := s1.m_phases }
      (.local_scan .input .output none input.length s1.m_aligned_size s1.m_block_size)
        = true := by
    simp only [Dispatch.in_bounds, Dispatch.next_in_bounds, Memory.read, Bool.and_true,
      Bool.and_eq_true, decide_eq_true_eq]
    exact ⟨Nat.min_le_right _ _, Nat.le_trans (Nat.min_le_right _ _) hm⟩
  have hc : scan_checked fuel s input output = scan fuel s input output := by
    unfold scan_checked scan
    rw [inclusive_scan_returns _ _ hm he, schedule_nil _ _ hP]
    simp only [List.nil_append, chain, run_all_checked, Dispatch.run_checked, hin, if_true,
      run_all, List.foldl_cons, List.foldl_nil]
  obtain ⟨s2, out, h1, -, h3, -, -, -, -⟩ := scan_correct s input output fuel hv hB hu hm hf
  exact ⟨s2, out, hc.trans h1, h3⟩

/-- Runs without an access outside a buffer exist at several Levels: 4 ones
and 7 flags at block size 2, 9 ones at block size 3. -/
theorem defined_scan_examples :
    (scan_checked 4 (Scan.construct 2 2) [1, 1, 1, 1] [0, 0, 0, 0]).map (fun r => r.2)
      = some [1, 2, 3, 4] ∧
    (scan_checked 7 (Scan.construct 2 2) [1, 0, 1, 1, 0, 0, 1] [0, 0, 0, 0, 0, 0, 0]).map
        (fun r => r.2) = some [1, 1, 2, 3, 3, 3, 4] ∧
    (scan_checked 9 (Scan.construct 3 3) [1, 1, 1, 1, 1, 1, 1, 1, 1]
        [0, 0, 0, 0, 0, 0, 0, 0, 0]).map (fun r => r.2)
      = some [1, 2, 3, 4, 5, 6, 7, 8, 9] := by
  decide

/-- C1 evaluated at block size 2 and 5 ones: the call returns with one Level
of 2 slots, the first dispatch runs 3 work-groups and its store
`next[get_group_id(0)]` of work-group 2 is outside `Level[0]`, so the run has
no defined result. The same first dispatch is out of bounds at block size 256
and 65537 elements (257 work-groups, 256 slots). -/
theorem C1_undefined_at_5 :
    (ensure_buffers_ready 5 (Scan.construct 2 2) 5).map (fun s => s.m_phases)
      = some [[0, 0]] ∧
    (schedule { m_last_input_size := 5, m_aligned_size := 6, m_block_size := 2,
                m_phases := [[0, 0]] } 5 5).map
      (Dispatch.in_bounds { input := [1, 1, 1, 1, 1], output := [0, 0, 0, 0, 0],
                            phases := [[0, 0]] })
      = [false, true, true] ∧
    scan_checked 5 (Scan.construct 2 2) [1, 1, 1, 1, 1] [0, 0, 0, 0, 0] = none ∧
    (∀ input output : List Nat,
      Dispatch.in_bounds { input := input, output := output, phases := [alloc 256] }
        (.local_scan .input .output (some (.phase 0)) 65537 65792 256) = false) := by
  refine ⟨by decide, by decide, by decide, ?_⟩
  intro input output
  simp [Dispatch.in_bounds, Dispatch.next_in_bounds, Memory.read, alloc_length]

/-- C3 evaluated at block size 2 and two inputs of 5 elements: the first call
has no defined result, and a second call on the coordinator with its cache
of one 2-slot Level reused (here holding `[4, 8]`) runs the same 3 work-groups
on the 2 slots and has none either. -/
theorem C3_undefined_at_5 :
    scan_checked 5 (Scan.construct 2 2) [2, 2, 2, 2, 2] [0, 0, 0, 0, 0] = none ∧
    ensure_buffers_ready 5
        { m_last_input_size := 5, m_aligned_size := 6, m_block_size := 2,
          m_phases := [[4, 8]] } 5
      = some { m_last_input_size := 5, m_aligned_size := 6, m_block_size := 2,
               m_phases := [[4, 8]] } ∧
    scan_checked 5
        { m_last_input_size := 5, m_aligned_size := 6, m_block_size := 2,
          m_phases := [[4, 8]] } [3, 0, 0, 0, 7] [9, 9, 9, 9, 9] = none ∧
    (Dispatch.local_scan .input .output (some (.phase 0)) 5 6 2).next_in_bounds
        { input := [3, 0, 0, 0, 7], output := [9, 9, 9, 9, 9], phases := [[4, 8]] }
      = false := by
  decide

/-- C9 evaluated at block size 2 and the 5 flags `[1,0,1,1,0]`: `Level[0]`
has 2 slots for the 3 blocks of the padded flags, the first dispatch stores
outside it and the run has no defined result; the same at the 11 flags
`[1,0,1,1,0,0,1,0,1,1,1]`, where `Level[1]` has 2 slots for the 3 blocks of
`Level[0]`. -/
theorem C9_undefined_at_5 :
    scan_checked 5 (Scan.construct 2 2) [1, 0, 1, 1, 0] [0, 0, 0, 0, 0] = none ∧
    (Dispatch.local_scan .input .output (some (.phase 0)) 5 6 2).next_in_bounds
        { input := [1, 0, 1, 1, 0], output := [0, 0, 0, 0, 0], phases := [[0, 0]] }
      = false ∧
    scan_checked 11 (Scan.construct 2 2) [1, 0, 1, 1, 0, 0, 1, 0, 1, 1, 1]
        [0, 0, 0, 0, 0, 0, 0, 0, 0, 0, 0] = none := by
  decide

end vm
